import Mathlib

/-!
# SSIDS CPU subtree factorization: node factorizer, scratch workspace, subtree driver

A shallow embedding of `src/ssids/cpu/factor.hxx` and `src/ssids/cpu/CpuSubtree.hxx`.

Modelling conventions.
* C++ `int`/`long` values are `Int`; `size_t` values are `Nat` reduced modulo `2^64`
  wherever the source computes with them.  The `int` products of node dimensions, which
  leave the range of `int` for dimensions that occur (the size `(m-n)*(m-n)` passed to
  `deallocate`, the lengths passed to `get_ptr`), are evaluated with the wrap-around of
  the compiled code (`wrap_int`); sums and differences of dimensions and counters stay
  within the range of `int` for every node that fits in memory and are computed exactly.
* The numeric type `T` is an arbitrary linearly ordered field `α` (exact arithmetic); the
  constant `std::numeric_limits<T>::infinity()` is a parameter `infinity : α`.
* Buffers are total functions `Nat → α` from element index to value.  Of a node's `lcol`
  buffer only the diagonal region `d` is represented, because it is the only part the
  code in these two files reads or writes itself; `perm` and the rest of `lcol` are
  touched by the dense kernels alone.
* The dense kernels, `assemble_node` and `calculate_update` are external.  What a kernel
  call returns and writes is supplied as data (`KernelOutcome`, `NodeKernels`), with no
  assumption made about it.
* The node factorizer that CpuSubtree.hxx calls is not the `factor_node` of factor.hxx
  (the template and parameter lists differ) and is not among the source files; the driver
  is embedded with that callee modelled from the specification (`spec_factor_node`).
-/

namespace spral.ssids.cpu

/-! ## Constants and records -/

/-- Status value SSIDS_SUCCESS of factor.hxx. -/
def SSIDS_SUCCESS : Int := 0

/-- Status value SSIDS_ERROR_NOT_POS_DEF of factor.hxx. -/
def SSIDS_ERROR_NOT_POS_DEF : Int := -6

/-- Number of values of the type size_t (64-bit). -/
def SIZE_T_RANGE : Nat := 2 ^ 64

/-- Conversion of an int to size_t. -/
def to_size_t (x : Int) : Nat := (x % (SIZE_T_RANGE : Int)).toNat

/-- The value of an `int` expression whose exact value is `x`, as the compiled code
computes it: reduced to the 32-bit two's-complement range (the identity on that range). -/
def wrap_int (x : Int) : Int := (x + 2 ^ 31) % 2 ^ 32 - 2 ^ 31

/-- The statistics record `cpu_factor_stats`, with the fields the two source files use. -/
structure cpu_factor_stats where
  flag : Int
  num_delay : Int
  num_neg : Int
  num_two : Int
  num_zero : Int
  maxfront : Int
  not_first_pass : Int
  not_second_pass : Int
deriving DecidableEq, Repr

/-- Zero-initialised statistics. -/
def cpu_factor_stats.zero : cpu_factor_stats :=
  { flag := 0, num_delay := 0, num_neg := 0, num_two := 0, num_zero := 0,
    maxfront := 0, not_first_pass := 0, not_second_pass := 0 }

/-- The shape descriptor `SymbolicNode`: the fields factor.hxx reads. -/
structure SymbolicNode where
  nrow : Int
  ncol : Int
deriving DecidableEq, Repr

/-- The numeric record `NumericNode<T>`: `first_child` is true when the pointer is
non-null, `d` is the region `&lcol[n*ldl]`, `contrib` is `none` for a null pointer. -/
structure NumericNode (α : Type) where
  first_child : Bool
  ndelay_in : Int
  ndelay_out : Int
  nelim : Int
  d : Nat → α
  contrib : Option (Nat → α)

/-! ## Workspace -/

/-- The class `Workspace`: its three members, and a count `nalloc` of the calls made to
`::operator new` so far (a ghost field, used to tell when a reallocation happened). -/
structure Workspace where
  mem_ : Nat
  mem_aligned_ : Nat
  sz_ : Nat
  nalloc : Nat
deriving DecidableEq, Repr

/-- The constant `Workspace::align`. -/
def Workspace.align : Nat := 32

/-- The library function `std::align(alignment, size, ptr, space)`: the updated
`(ptr, space)`.  When `size` bytes do not fit after alignment nothing is changed. -/
def std_align (alignment size ptr space : Nat) : Nat × Nat :=
  let aligned := (ptr + (alignment - 1)) / alignment * alignment
  let pad := aligned - ptr
  if space < size ∨ space - size < pad then (ptr, space) else (aligned, space - pad)

/-- The method `Workspace::alloc_and_align(sz)`.  `heap k` is the address returned by the
`k`-th call of `::operator new`. -/
def Workspace.alloc_and_align (heap : Nat → Nat) (w : Workspace) (sz : Nat) : Workspace :=
  let sz_ := (sz + Workspace.align) % SIZE_T_RANGE
  let mem_ := heap w.nalloc
  let r := std_align Workspace.align sz mem_ sz_
  { mem_ := mem_, mem_aligned_ := r.1, sz_ := r.2, nalloc := w.nalloc + 1 }

/-- The constructor `Workspace(sz)`. -/
def Workspace.ctor (heap : Nat → Nat) (sz : Nat) : Workspace :=
  Workspace.alloc_and_align heap { mem_ := 0, mem_aligned_ := 0, sz_ := 0, nalloc := 0 } sz

/-- The method `Workspace::get_ptr<T>(len)` with `sizeofT = sizeof(T)`: the returned
pointer and the workspace afterwards. -/
def Workspace.get_ptr (heap : Nat → Nat) (sizeofT : Nat) (w : Workspace) (len : Nat) :
    Nat × Workspace :=
  let bytes := (len * sizeofT) % SIZE_T_RANGE
  let w1 := if w.sz_ < bytes then Workspace.alloc_and_align heap w bytes else w
  (w1.mem_aligned_, w1)

/-- A sequence of `get_ptr` calls, each given as `(sizeof(T), len)`. -/
def Workspace.run (heap : Nat → Nat) (w : Workspace) (calls : List (Nat × Nat)) : Workspace :=
  calls.foldl (fun w c => (Workspace.get_ptr heap c.1 w c.2).2) w

/-! ## Node factorizer -/

/-- What the external dense kernels do when called on one node: the values they return
and the contents they leave in the buffers they are handed. -/
structure KernelOutcome (α : Type) where
  /-- The `flag` output of `cholesky_factor`. -/
  cholesky_flag : Int
  /-- The contents `cholesky_factor` leaves in `contrib`. -/
  cholesky_contrib : (Nat → α) → (Nat → α)
  /-- The return value of `ldlt_app_factor`. -/
  ldlt_app_nelim : Int
  /-- The contents `ldlt_app_factor` leaves in `d`. -/
  ldlt_app_d : (Nat → α) → (Nat → α)
  /-- The contents `ldlt_app_factor` leaves in `contrib`. -/
  ldlt_app_contrib : (Nat → α) → (Nat → α)
  /-- The return value of `ldlt_tpp_factor`. -/
  ldlt_tpp_nelim : Int
  /-- The contents `ldlt_tpp_factor` leaves in `d`. -/
  ldlt_tpp_d : (Nat → α) → (Nat → α)
  /-- The contents `host_gemm` leaves in `contrib`. -/
  host_gemm_contrib : (Nat → α) → (Nat → α)

/-- The contribution allocator, as the log of the sizes (of type size_t) passed to
`deallocate`. -/
structure ContribAlloc where
  deallocated : List Nat
deriving DecidableEq, Repr

/-- The call `CATraits::deallocate(contrib_alloc, p, size)`. -/
def ContribAlloc.deallocate (a : ContribAlloc) (size : Nat) : ContribAlloc :=
  { deallocated := a.deallocated ++ [size] }

/-- The call `memset(buf, 0, count*sizeof(T))`: the first `count` elements become zero. -/
def memset_zero {α : Type} [Zero α] (buf : Nat → α) (count : Nat) : Nat → α :=
  fun j => if j < count then 0 else buf j

/-- Everything a node factorization reads and writes. -/
structure FactorState (α : Type) where
  node : NumericNode α
  stats : cpu_factor_stats
  work : Workspace
  contrib_alloc : ContribAlloc

/-- The block of `factor_node_indef` guarded by `if(node->nelim < n)`, lines 100-128.
`calcLD` writes workspace memory only, and `rbeta` only selects what `host_gemm` writes to
`contrib`; both are covered by `K.host_gemm_contrib`. -/
def indef_second_pass {α : Type} (K : KernelOutcome α) (heap : Nat → Nat) (sizeofT : Nat)
    (align_lda : Int → Int) (m n : Int) (s : FactorState α) : FactorState α :=
  let nelim := s.node.nelim
  let stats1 := { s.stats with not_first_pass := s.stats.not_first_pass + (n - nelim) }
  let work1 :=
    (Workspace.get_ptr heap sizeofT s.work (to_size_t (wrap_int (2 * (m - nelim))))).2
  let node1 := { s.node with nelim := s.node.nelim + K.ldlt_tpp_nelim,
                             d := K.ldlt_tpp_d s.node.d }
  let s2 : FactorState α :=
    if m - n > 0 ∧ node1.nelim > nelim then
      let nelim2 := node1.nelim - nelim
      let ldld := align_lda (m - n)
      let work2 :=
        (Workspace.get_ptr heap sizeofT work1 (to_size_t (wrap_int (nelim2 * ldld)))).2
      { node := { node1 with contrib := node1.contrib.map K.host_gemm_contrib },
        stats := stats1, work := work2, contrib_alloc := s.contrib_alloc }
    else
      { node := node1, stats := stats1, work := work1, contrib_alloc := s.contrib_alloc }
  { s2 with stats := { s2.stats with
      not_second_pass := s2.stats.not_second_pass + (n - s2.node.nelim) } }

/-- The contribution-block step of `factor_node_indef`, lines 137-148.  At line 142 the size
`(m-n)*(m-n)` is an `int` product converted to size_t; at lines 146-147 `m-n` is widened
to `long` before it is squared. -/
def indef_contrib_lifecycle {α : Type} [Zero α] (m n : Int) (s : FactorState α) :
    FactorState α :=
  if s.node.nelim = 0 ∧ s.node.first_child = false then
    { s with contrib_alloc :=
               s.contrib_alloc.deallocate (to_size_t (wrap_int ((m - n) * (m - n)))),
             node := { s.node with contrib := none } }
  else if s.node.nelim = 0 then
    let contrib_size : Int := m - n
    { s with node := { s.node with
        contrib := s.node.contrib.map
          (fun c => memset_zero c (contrib_size * contrib_size).toNat) } }
  else s

/-- The elimination part of `factor_node_indef`, lines 83-135: both factorization stages
and the recording of `ndelay_out` and `num_delay`. -/
def indef_eliminate {α : Type} (K : KernelOutcome α) (heap : Nat → Nat)
    (sizeofT : Nat) (align_lda : Int → Int) (snode : SymbolicNode) (s : FactorState α) :
    FactorState α :=
  let m := snode.nrow + s.node.ndelay_in
  let n := snode.ncol + s.node.ndelay_in
  let s1 : FactorState α :=
    { s with node := { s.node with nelim := K.ldlt_app_nelim,
                                   d := K.ldlt_app_d s.node.d,
                                   contrib := s.node.contrib.map K.ldlt_app_contrib } }
  let s2 := if s1.node.nelim < n then indef_second_pass K heap sizeofT align_lda m n s1 else s1
  let node3 := { s2.node with ndelay_out := n - s2.node.nelim }
  { s2 with node := node3,
            stats := { s2.stats with num_delay := s2.stats.num_delay + node3.ndelay_out } }

/-- The function `factor_node_indef`: elimination, then the contribution-block step.
`align_lda` is the helper `align_lda<T>`. -/
def factor_node_indef {α : Type} [Zero α] (K : KernelOutcome α) (heap : Nat → Nat)
    (sizeofT : Nat) (align_lda : Int → Int) (snode : SymbolicNode) (s : FactorState α) :
    FactorState α :=
  let m := snode.nrow + s.node.ndelay_in
  let n := snode.ncol + s.node.ndelay_in
  indef_contrib_lifecycle m n (indef_eliminate K heap sizeofT align_lda snode s)

/-- The function `factor_node_posdef`. -/
def factor_node_posdef {α : Type} (K : KernelOutcome α) (snode : SymbolicNode)
    (s : FactorState α) : FactorState α :=
  let n := snode.ncol
  let flag := K.cholesky_flag
  let node1 := { s.node with contrib := s.node.contrib.map K.cholesky_contrib }
  if flag ≠ -1 then
    { s with node := { node1 with nelim := flag + 1 },
             stats := { s.stats with flag := SSIDS_ERROR_NOT_POS_DEF } }
  else
    { s with node := { node1 with nelim := n, ndelay_out := 0 } }

/-- The wrapper `factor_node<posdef,...>`. -/
def factor_node {α : Type} [Zero α] (posdef : Bool) (K : KernelOutcome α) (heap : Nat → Nat)
    (sizeofT : Nat) (align_lda : Int → Int) (snode : SymbolicNode) (s : FactorState α) :
    FactorState α :=
  if posdef then factor_node_posdef K snode s
  else factor_node_indef K heap sizeofT align_lda snode s

/-! ## Subtree driver -/

/-- The per-node record `cpu_node_data<T>` the driver works on (its declaration is not
among the source files): the fields CpuSubtree.hxx reads, namely `nrow_expected`,
`ncol_expected`, `ndelay_in`, `nelim` and, as `d`, the memory at `lcol + m*n` that the
statistics pass reads; and `ndelay_out` of the node record of the specification. -/
structure cpu_node_data (α : Type) where
  nrow_expected : Int
  ncol_expected : Int
  ndelay_in : Int
  ndelay_out : Int
  nelim : Int
  d : Nat → α

/-- The operations the driver performs on a node, in a log kept to state ordering
properties (the log is not part of the source). -/
inductive Op where
  | assemble (ni : Nat)
  | factorize (ni : Nat)
  | form_update (ni : Nat)
deriving DecidableEq, Repr

/-- What the dense kernels do when the driver's node factorizer runs on one node: the
pivot index at which the positive-definite kernel reports failure (`none` on success),
the numbers of columns the two indefinite stages eliminate, and the contents left in the
memory the statistics pass reads. -/
structure NodeKernels (α : Type) where
  cholesky_failure : Option Int
  nelim1 : Int
  nelim2 : Int
  d_after : (Nat → α) → (Nat → α)

/-- The result of the driver's node factorizer in the form the specification gives it
(section 9): the node state and statistics, and whether this is a terminal failure. -/
structure NodeResult (α : Type) where
  node : cpu_node_data α
  stats : cpu_factor_stats
  fatal : Bool

/-- Modelled from the spec: the node factorizer
`factor_node<posdef, T, BLOCK_SIZE>(ni, &nodes_[ni], options, stats)` called at
CpuSubtree.hxx lines 37-39, whose definition is not among the source files.  Section 4.2,
with `n` the columns plus the incoming delay count (section 3).  Positive-definite
strategy: if the kernel reports failure at pivot index `k`, set `nelim = k`, record the
fatal not-positive-definite condition in the statistics flag and propagate a terminal
failure to the caller; on success `nelim = n` and `ndelay_out = 0`.  Indefinite strategy:
stage 1 reports `nelim1`; if `nelim1 < n`, record `n - nelim1` as not-first-pass, run
stage 2 for `nelim2` more, `nelim = nelim1 + nelim2`, and record `n - nelim` as
not-second-pass; `ndelay_out = n - nelim` always, accumulated into the delay counter
(section 7).  A result with `fatal = true` is the terminal failure of sections 5 and 7:
it "terminates the whole subtree pass immediately, leaving later nodes unprocessed". -/
def spec_factor_node {α : Type} (posdef : Bool) (K : NodeKernels α) (node : cpu_node_data α)
    (stats : cpu_factor_stats) : NodeResult α :=
  let n := node.ncol_expected + node.ndelay_in
  let node1 := { node with d := K.d_after node.d }
  if posdef then
    match K.cholesky_failure with
    | some k =>
      { node := { node1 with nelim := k },
        stats := { stats with flag := SSIDS_ERROR_NOT_POS_DEF },
        fatal := true }
    | none =>
      { node := { node1 with nelim := n, ndelay_out := 0 }, stats := stats, fatal := false }
  else
    let nelim := if K.nelim1 < n then K.nelim1 + K.nelim2 else K.nelim1
    let stats1 :=
      if K.nelim1 < n then
        { stats with not_first_pass := stats.not_first_pass + (n - K.nelim1),
                     not_second_pass := stats.not_second_pass + (n - nelim) }
      else stats
    { node := { node1 with nelim := nelim, ndelay_out := n - nelim },
      stats := { stats1 with num_delay := stats1.num_delay + (n - nelim) },
      fatal := false }

/-- The external collaborators of the driver: `assemble_node` and `calculate_update` may
rewrite the node records (and `calculate_update` the workspace it is handed); `kernels ni`
is what the dense kernels do on node `ni`. -/
structure Externals (α : Type) where
  assemble_node : Bool → Nat → (Nat → cpu_node_data α) → (Nat → cpu_node_data α)
  calculate_update : Bool → Nat → (Nat → cpu_node_data α) → Workspace →
    (Nat → cpu_node_data α) × Workspace
  kernels : Nat → NodeKernels α

/-- The object `CpuSubtree` (members `nnodes_`, `nodes_`) together with the arguments of
`factor` that are read or written, and the log of operations. -/
structure SubtreeState (α : Type) where
  nnodes_ : Int
  nodes_ : Nat → cpu_node_data α
  stats : cpu_factor_stats
  work : Workspace
  log : List Op

/-- One iteration of the main loop of `CpuSubtree::factor`, lines 29-42: the state after
it, and whether the node factorizer propagated a terminal failure.  The source has no
test after the call at lines 37-39; the `fatal` branch is the propagation of a terminal
failure out of the callee as `spec_factor_node` models it, which leaves the iteration
before the update formation of lines 41-42. -/
def factor_iteration {α : Type} (posdef : Bool) (E : Externals α) (ni : Nat)
    (S : SubtreeState α) : SubtreeState α × Bool :=
  -- Assembly
  let nodes1 := E.assemble_node posdef ni S.nodes_
  let log1 := S.log ++ [Op.assemble ni]
  -- Update stats
  let nrow := (nodes1 ni).nrow_expected + (nodes1 ni).ndelay_in
  let stats1 := { S.stats with maxfront := max S.stats.maxfront nrow }
  -- Factorization
  let r := spec_factor_node posdef (E.kernels ni) (nodes1 ni) stats1
  let nodes2 := Function.update nodes1 ni r.node
  let log2 := log1 ++ [Op.factorize ni]
  if r.fatal then
    ({ nnodes_ := S.nnodes_, nodes_ := nodes2, stats := r.stats, work := S.work,
       log := log2 }, true)
  else
    -- Form update
    let u := E.calculate_update posdef ni nodes2 S.work
    ({ nnodes_ := S.nnodes_, nodes_ := u.1, stats := r.stats, work := u.2,
       log := log2 ++ [Op.form_update ni] }, false)

/-- The main loop of `CpuSubtree::factor`, lines 28-43: the state after it, and whether a
terminal failure ended it.  A terminal failure propagated out of the node factorizer
(see `spec_factor_node`) leaves the loop: no further iteration is executed. -/
def main_loop {α : Type} (posdef : Bool) (E : Externals α) (S : SubtreeState α) :
    SubtreeState α × Bool :=
  (List.range S.nnodes_.toNat).foldl
    (fun p ni => if p.2 then p else factor_iteration posdef E ni p.1) (S, false)

/-- The first `k` iterations of the main loop. -/
def main_loop_steps {α : Type} (posdef : Bool) (E : Externals α) (S : SubtreeState α)
    (k : Nat) : SubtreeState α × Bool :=
  (List.range k).foldl
    (fun p ni => if p.2 then p else factor_iteration posdef E ni p.1) (S, false)

/-- The sentinel loop, lines 57-59: `if(d[2*i] == infinity) d[2*i] = d[2*i+1]` for
`i = 0 .. nelim-1`. -/
def repair_infinity {α : Type} [DecidableEq α] (infinity : α) (d : Nat → α) (nelim : Int) :
    Nat → α :=
  (List.range nelim.toNat).foldl
    (fun d i => if d (2 * i) = infinity then Function.update d (2 * i) (d (2 * i + 1)) else d) d

/-- The body of the classification loop, lines 61-77: the next column index and the
statistics after classifying the pivot at column `i`. -/
def classify_body {α : Type} [LinearOrderedField α] (d : Nat → α) (i : Nat)
    (stats : cpu_factor_stats) : Nat × cpu_factor_stats :=
  let a11 := d (2 * i)
  let a21 := d (2 * i + 1)
  if a21 = 0 then
    -- 1x1 pivot (or zero)
    let stats1 := if a11 = 0 then { stats with num_zero := stats.num_zero + 1 } else stats
    let stats2 := if a11 < 0 then { stats1 with num_neg := stats1.num_neg + 1 } else stats1
    (i + 1, stats2)
  else
    -- 2x2 pivot
    let a22 := d (2 * (i + 1))
    let stats1 := { stats with num_two := stats.num_two + 1 }
    let det := a11 * a22 - a21 * a21
    let trace := a11 + a22
    let stats2 :=
      if det < 0 then { stats1 with num_neg := stats1.num_neg + 1 }
      else if trace < 0 then { stats1 with num_neg := stats1.num_neg + 2 }
      else stats1
    (i + 2, stats2)

/-- The classification loop `for(int i=0; i<nelim; )`, lines 60-78, from column `i`.  Every
iteration advances `i`, so `nelim - i` iterations always reach the exit test; `fuel` bounds
the number of iterations. -/
def classify_loop {α : Type} [LinearOrderedField α] (d : Nat → α) (nelim : Int) :
    Nat → Nat → cpu_factor_stats → cpu_factor_stats
  | 0, _, stats => stats
  | fuel + 1, i, stats =>
    if (i : Int) < nelim then
      let r := classify_body d i stats
      classify_loop d nelim fuel r.1 r.2
    else stats

/-- The post-pass on one node, lines 54-78: sentinel repair, then classification. -/
def count_node {α : Type} [LinearOrderedField α] (infinity : α) (nd : cpu_node_data α)
    (stats : cpu_factor_stats) : cpu_node_data α × cpu_factor_stats :=
  let d := repair_infinity infinity nd.d nd.nelim
  ({ nd with d := d }, classify_loop d nd.nelim nd.nelim.toNat 0 stats)

/-- The statistics pass of `CpuSubtree::factor`, lines 50-80. -/
def count_stats {α : Type} [LinearOrderedField α] (posdef : Bool) (infinity : α)
    (S : SubtreeState α) : SubtreeState α :=
  if posdef then S
  else
    (List.range S.nnodes_.toNat).foldl
      (fun S ni =>
        let r := count_node infinity (S.nodes_ ni) S.stats
        { S with nodes_ := Function.update S.nodes_ ni r.1, stats := r.2 }) S

/-- The method `CpuSubtree::factor`: the main loop and, unless a terminal failure ended
the pass, the statistics pass. -/
def CpuSubtree.factor {α : Type} [LinearOrderedField α] (posdef : Bool) (E : Externals α)
    (infinity : α) (S : SubtreeState α) : SubtreeState α :=
  if (main_loop posdef E S).2 then (main_loop posdef E S).1
  else count_stats posdef infinity (main_loop posdef E S).1

/-- The statistics after the post-pass has classified nodes `0 .. k-1` of `nodes`. -/
def post_pass_stats {α : Type} [LinearOrderedField α] (infinity : α)
    (nodes : Nat → cpu_node_data α) (stats : cpu_factor_stats) : Nat → cpu_factor_stats
  | 0 => stats
  | k + 1 => (count_node infinity (nodes k) (post_pass_stats infinity nodes stats k)).2

/-- The log of a pass that visits every node: assemble, factorize, form-update for node 0,
then for node 1, and so on. -/
def full_log : Nat → List Op
  | 0 => []
  | k + 1 => full_log k ++ [Op.assemble k, Op.factorize k, Op.form_update k]

/-! ## Pivot sequences and their eigenvalues (specification side) -/

/-- A pivot of the block-diagonal factor `D`: a 1x1 pivot `a`, or a 2x2 pivot
`[[a11, a21], [a21, a22]]`. -/
inductive Pivot (α : Type) where
  | one (a : α)
  | two (a11 a21 a22 : α)

/-- Number of columns a pivot covers. -/
def Pivot.cols {α : Type} : Pivot α → Nat
  | Pivot.one _ => 1
  | Pivot.two _ _ _ => 2

/-- Number of columns a pivot sequence covers. -/
def pivot_cols {α : Type} : List (Pivot α) → Nat
  | [] => 0
  | p :: ps => p.cols + pivot_cols ps

/-- The storage `d` holds the pivot sequence `ps` from column `i` on, in the layout the
classification loop reads: `[a, 0]` for a 1x1 pivot, `[a11, a21, a22, *]` with `a21 ≠ 0`
for a 2x2 pivot (the fourth slot is not constrained). -/
def Encodes {α : Type} [Zero α] (d : Nat → α) : Nat → List (Pivot α) → Prop
  | _, [] => True
  | i, Pivot.one a :: ps => d (2 * i) = a ∧ d (2 * i + 1) = 0 ∧ Encodes d (i + 1) ps
  | i, Pivot.two a11 a21 a22 :: ps =>
    d (2 * i) = a11 ∧ d (2 * i + 1) = a21 ∧ a21 ≠ 0 ∧ d (2 * (i + 1)) = a22 ∧
      Encodes d (i + 2) ps

/-- After the sentinel repair, the diagonal storage of `nd` holds the pivot sequence `ps`,
which covers exactly the `nelim` eliminated columns. -/
def HoldsPivots {α : Type} [LinearOrderedField α] (infinity : α) (nd : cpu_node_data α)
    (ps : List (Pivot α)) : Prop :=
  Encodes (repair_infinity infinity nd.d nd.nelim) 0 ps ∧ (pivot_cols ps : Int) = nd.nelim

/-- Of an indefinite run from state `S`: at the end of the main loop, every node `ni` holds
the pivot sequence `ps ni` in the sense of `HoldsPivots`. -/
def RunHolds {α : Type} [LinearOrderedField α] (E : Externals α) (infinity : α)
    (S : SubtreeState α) (ps : Nat → List (Pivot α)) : Prop :=
  ∀ ni : Nat, (ni : Int) < S.nnodes_ →
    HoldsPivots infinity ((main_loop false E S).1.nodes_ ni) (ps ni)

/-- The value `l` is an eigenvalue of the symmetric block `[[a11, a21], [a21, a22]]`: some
nonzero vector `(x, y)` is mapped to `l` times itself. -/
def IsEigenvalue {α : Type} [LinearOrderedField α] (a11 a21 a22 l : α) : Prop :=
  ∃ x y : α, (x ≠ 0 ∨ y ≠ 0) ∧ a11 * x + a21 * y = l * x ∧ a21 * x + a22 * y = l * y

/-- The eigenvalues of one pivot, listed with multiplicity: `[a]` for a 1x1 pivot, the two
distinct eigenvalues in increasing order for a 2x2 pivot. -/
def Pivot.HasSpectrum {α : Type} [LinearOrderedField α] : Pivot α → List α → Prop
  | Pivot.one a, ls => ls = [a]
  | Pivot.two a11 a21 a22, ls =>
    ∃ l1 l2 : α, ls = [l1, l2] ∧ l1 < l2 ∧
      ∀ l, IsEigenvalue a11 a21 a22 l ↔ (l = l1 ∨ l = l2)

/-- The eigenvalues of the block-diagonal matrix with the given pivots as blocks: the
eigenvalues of the blocks, in order. -/
def HasSpectrum {α : Type} [LinearOrderedField α] : List (Pivot α) → List α → Prop
  | [], ls => ls = []
  | p :: ps, ls => ∃ l1 l2 : List α, ls = l1 ++ l2 ∧ p.HasSpectrum l1 ∧ HasSpectrum ps l2

/-- A 2x2 pivot has a nonzero off-diagonal entry (a 1x1 pivot is not constrained). -/
def Pivot.Coupled {α : Type} [LinearOrderedField α] : Pivot α → Prop
  | Pivot.one _ => True
  | Pivot.two _ a21 _ => a21 ≠ 0

/-- The storage of a single pivot at column 0: `[a, 0, 0, ...]` or `[a11, a21, a22, ...]`. -/
def Pivot.storage {α : Type} [Zero α] : Pivot α → Nat → α
  | Pivot.one a => fun j => if j = 0 then a else 0
  | Pivot.two a11 a21 a22 => fun j => if j = 0 then a11 else if j = 1 then a21 else a22

/-- The statistics after the loop body has classified the pivot `p`. -/
def Pivot.classify {α : Type} [LinearOrderedField α] (p : Pivot α)
    (stats : cpu_factor_stats) : cpu_factor_stats :=
  (classify_body p.storage 0 stats).2

/-- The statistics after the loop body has classified the pivots `ps` in order. -/
def classify_pivots {α : Type} [LinearOrderedField α] (ps : List (Pivot α))
    (stats : cpu_factor_stats) : cpu_factor_stats :=
  ps.foldl (fun st p => p.classify st) stats

/-- What classifying the pivot `p` adds to `num_neg`. -/
def Pivot.neg_added {α : Type} [LinearOrderedField α] (p : Pivot α) : Int :=
  (p.classify cpu_factor_stats.zero).num_neg

/-- What classifying the pivot `p` adds to `num_zero`. -/
def Pivot.zero_added {α : Type} [LinearOrderedField α] (p : Pivot α) : Int :=
  (p.classify cpu_factor_stats.zero).num_zero

/-- A 2x2 pivot is nonsingular (a 1x1 pivot is not constrained). -/
def Pivot.Nonsingular {α : Type} [LinearOrderedField α] : Pivot α → Prop
  | Pivot.one _ => True
  | Pivot.two a11 a21 a22 => a11 * a22 - a21 * a21 ≠ 0

/-- The pivots of nodes `0 .. k-1`, in order. -/
def all_pivots {α : Type} (ps : Nat → List (Pivot α)) : Nat → List (Pivot α)
  | 0 => []
  | k + 1 => all_pivots ps k ++ ps k

/-- Total number of eliminated columns of nodes `0 .. k-1`. -/
def total_nelim {α : Type} (nodes : Nat → cpu_node_data α) : Nat → Int
  | 0 => 0
  | k + 1 => total_nelim nodes k + (nodes k).nelim

/-- Number of negative entries of a list. -/
def count_neg {α : Type} [LinearOrderedField α] (ls : List α) : Int :=
  ((ls.filter (fun l => decide (l < 0))).length : Int)

/-- Number of zero entries of a list. -/
def count_zero {α : Type} [LinearOrderedField α] (ls : List α) : Int :=
  ((ls.filter (fun l => decide (l = 0))).length : Int)

/-- Number of positive entries of a list. -/
def count_pos {α : Type} [LinearOrderedField α] (ls : List α) : Int :=
  ((ls.filter (fun l => decide (0 < l))).length : Int)

/-! ## Sample data used to evaluate the definitions on concrete inputs -/

/-- A heap whose every allocation is at address 4112 (a multiple of 16, not of 32). -/
def sample_heap : Nat → Nat := fun _ => 4112

/-- Kernel outcomes with the given return values, leaving all buffers as they are. -/
def sample_kernels (α : Type) (flag app tpp : Int) : KernelOutcome α :=
  { cholesky_flag := flag, cholesky_contrib := id,
    ldlt_app_nelim := app, ldlt_app_d := id, ldlt_app_contrib := id,
    ldlt_tpp_nelim := tpp, ldlt_tpp_d := id, host_gemm_contrib := id }

/-- A node record with the given child flag, incoming delays, elimination count and
diagonal storage, a contribution buffer filled with ones, and `ndelay_out = 0`. -/
def sample_node (α : Type) [LinearOrderedField α] (first_child : Bool)
    (ndelay_in nelim : Int) (d : Nat → α) : NumericNode α :=
  { first_child := first_child, ndelay_in := ndelay_in, ndelay_out := 0, nelim := nelim,
    d := d, contrib := some (fun _ => 1) }

/-- A factorization state around `sample_node` (with `nelim = 0` and zero storage), with
zero statistics, an empty deallocation log and a workspace constructed with size 0. -/
def sample_state (α : Type) [LinearOrderedField α] (first_child : Bool) (ndelay_in : Int) :
    FactorState α :=
  { node := sample_node α first_child ndelay_in 0 (fun _ => 0),
    stats := cpu_factor_stats.zero,
    work := Workspace.ctor sample_heap 0,
    contrib_alloc := { deallocated := [] } }


/-- Externals that leave the node records alone; on node `ni` the positive-definite kernel
reports `fail ni`, the first indefinite stage eliminates `elim ni` columns and the second
none, and the storage is left as it is. -/
def sample_externals (α : Type) (fail : Nat → Option Int) (elim : Nat → Int) : Externals α :=
  { assemble_node := fun _ _ nodes => nodes,
    calculate_update := fun _ _ nodes w => (nodes, w),
    kernels := fun ni =>
      { cholesky_failure := fail ni, nelim1 := elim ni, nelim2 := 0, d_after := id } }

/-- A subtree of `nnodes` square nodes, node `ni` having `cols ni` rows and columns,
elimination count `nelim ni` and diagonal storage `d ni`, with zero statistics and an
empty log. -/
def sample_subtree (α : Type) (nnodes : Int) (cols nelim : Nat → Int)
    (d : Nat → Nat → α) : SubtreeState α :=
  { nnodes_ := nnodes,
    nodes_ := fun ni =>
      { nrow_expected := cols ni, ncol_expected := cols ni, ndelay_in := 0, ndelay_out := 0,
        nelim := nelim ni, d := d ni },
    stats := cpu_factor_stats.zero,
    work := Workspace.ctor sample_heap 0,
    log := [] }

/-- Storage holding the values `xs` in its first slots and zero beyond. -/
def sample_d {α : Type} [Zero α] (xs : List α) : Nat → α := fun j => xs.getD j 0

/-! ## Theorems: node factorizer -/

/-- C1 (as stated, refuted): with the kernel flag equal to the pivot index `k = 0`,
`factor_node_posdef` leaves `nelim = 1`, not `nelim = k = 0`. -/
theorem factor_node_posdef_failure_nelim_counterexample :
    (sample_kernels ℚ 0 0 0).cholesky_flag = 0 ∧
    (factor_node_posdef (sample_kernels ℚ 0 0 0) { nrow := 3, ncol := 3 }
      (sample_state ℚ false 0)).node.nelim = 1 ∧
    (factor_node_posdef (sample_kernels ℚ 0 0 0) { nrow := 3, ncol := 3 }
      (sample_state ℚ false 0)).node.nelim ≠ 0 := by
  simp [factor_node_posdef, sample_kernels, sample_state, sample_node]

/-- C1 (amended): if the Cholesky kernel reports failure at pivot index `k ≥ 0` through its
flag output (`flag = k`), then `factor_node_posdef` returns with `nelim = k + 1` and with
`stats.flag = SSIDS_ERROR_NOT_POS_DEF = -6`. -/
theorem factor_node_posdef_failure {α : Type} (K : KernelOutcome α) (snode : SymbolicNode)
    (s : FactorState α) (k : Int) (hk : 0 ≤ k) (hflag : K.cholesky_flag = k) :
    (factor_node_posdef K snode s).node.nelim = k + 1 ∧
    (factor_node_posdef K snode s).stats.flag = SSIDS_ERROR_NOT_POS_DEF ∧
    SSIDS_ERROR_NOT_POS_DEF = -6 := by
  have hne : k ≠ -1 := by omega
  simp [factor_node_posdef, hne, hflag, SSIDS_ERROR_NOT_POS_DEF]

/-- Witness for C1 (amended): failure at pivot index 2 gives `nelim = 3` and flag -6. -/
theorem factor_node_posdef_failure_witness :
    (factor_node_posdef (sample_kernels ℚ 2 0 0) { nrow := 5, ncol := 4 }
      (sample_state ℚ false 0)).node.nelim = 2 + 1 ∧
    (factor_node_posdef (sample_kernels ℚ 2 0 0) { nrow := 5, ncol := 4 }
      (sample_state ℚ false 0)).stats.flag = SSIDS_ERROR_NOT_POS_DEF ∧
    SSIDS_ERROR_NOT_POS_DEF = -6 :=
  factor_node_posdef_failure (sample_kernels ℚ 2 0 0) { nrow := 5, ncol := 4 }
    (sample_state ℚ false 0) 2 (by decide) rfl

/-- C5: if the Cholesky kernel reports success (`flag = -1`), `factor_node_posdef` returns
with `nelim = n` (the node's column count) and `ndelay_out = 0`, and the statistics,
`stats.flag` among them, are unchanged. -/
theorem factor_node_posdef_success {α : Type} (K : KernelOutcome α) (snode : SymbolicNode)
    (s : FactorState α) (hflag : K.cholesky_flag = -1) :
    (factor_node_posdef K snode s).node.nelim = snode.ncol ∧
    (factor_node_posdef K snode s).node.ndelay_out = 0 ∧
    (factor_node_posdef K snode s).stats.flag = s.stats.flag ∧
    (factor_node_posdef K snode s).stats = s.stats := by
  simp [factor_node_posdef, hflag]

/-- Witness for C5: a node with 4 columns and a successful kernel. -/
theorem factor_node_posdef_success_witness :
    (factor_node_posdef (sample_kernels ℚ (-1) 0 0) { nrow := 4, ncol := 4 }
      (sample_state ℚ false 0)).node.nelim = 4 ∧
    (factor_node_posdef (sample_kernels ℚ (-1) 0 0) { nrow := 4, ncol := 4 }
      (sample_state ℚ false 0)).node.ndelay_out = 0 ∧
    (factor_node_posdef (sample_kernels ℚ (-1) 0 0) { nrow := 4, ncol := 4 }
      (sample_state ℚ false 0)).stats.flag = (sample_state ℚ false 0).stats.flag ∧
    (factor_node_posdef (sample_kernels ℚ (-1) 0 0) { nrow := 4, ncol := 4 }
      (sample_state ℚ false 0)).stats = (sample_state ℚ false 0).stats :=
  factor_node_posdef_success (sample_kernels ℚ (-1) 0 0) { nrow := 4, ncol := 4 }
    (sample_state ℚ false 0) rfl

/-- The contribution-block step changes neither `nelim`, `ndelay_out` nor the statistics. -/
theorem indef_contrib_lifecycle_keeps {α : Type} [Zero α] (m n : Int) (s : FactorState α) :
    (indef_contrib_lifecycle m n s).node.nelim = s.node.nelim ∧
    (indef_contrib_lifecycle m n s).node.ndelay_out = s.node.ndelay_out ∧
    (indef_contrib_lifecycle m n s).node.first_child = s.node.first_child ∧
    (indef_contrib_lifecycle m n s).stats = s.stats := by
  unfold indef_contrib_lifecycle
  split_ifs <;> simp

/-- The second-pass block: its effect on `nelim` and on the two pass counters. -/
theorem indef_second_pass_counts {α : Type} (K : KernelOutcome α) (heap : Nat → Nat)
    (sizeofT : Nat) (align_lda : Int → Int) (m n : Int) (s : FactorState α) :
    (indef_second_pass K heap sizeofT align_lda m n s).node.nelim
      = s.node.nelim + K.ldlt_tpp_nelim ∧
    (indef_second_pass K heap sizeofT align_lda m n s).stats.not_first_pass
      = s.stats.not_first_pass + (n - s.node.nelim) ∧
    (indef_second_pass K heap sizeofT align_lda m n s).stats.not_second_pass
      = s.stats.not_second_pass + (n - (s.node.nelim + K.ldlt_tpp_nelim)) := by
  simp only [indef_second_pass]
  split_ifs <;> simp

/-- The elimination part of `factor_node_indef`: `nelim`, `ndelay_out` and the two pass
counters in terms of the kernel return values. -/
theorem indef_eliminate_counts {α : Type} (K : KernelOutcome α) (heap : Nat → Nat)
    (sizeofT : Nat) (align_lda : Int → Int) (snode : SymbolicNode) (s : FactorState α) :
    (indef_eliminate K heap sizeofT align_lda snode s).node.nelim
      = K.ldlt_app_nelim +
        (if K.ldlt_app_nelim < snode.ncol + s.node.ndelay_in then K.ldlt_tpp_nelim else 0) ∧
    (indef_eliminate K heap sizeofT align_lda snode s).node.ndelay_out
      = snode.ncol + s.node.ndelay_in
        - (indef_eliminate K heap sizeofT align_lda snode s).node.nelim ∧
    (indef_eliminate K heap sizeofT align_lda snode s).stats.not_first_pass
      = s.stats.not_first_pass +
        (if K.ldlt_app_nelim < snode.ncol + s.node.ndelay_in
          then snode.ncol + s.node.ndelay_in - K.ldlt_app_nelim else 0) ∧
    (indef_eliminate K heap sizeofT align_lda snode s).stats.not_second_pass
      = s.stats.not_second_pass +
        (if K.ldlt_app_nelim < snode.ncol + s.node.ndelay_in
          then snode.ncol + s.node.ndelay_in - (K.ldlt_app_nelim + K.ldlt_tpp_nelim) else 0) := by
  unfold indef_eliminate
  by_cases h : K.ldlt_app_nelim < snode.ncol + s.node.ndelay_in
  · simp [h, indef_second_pass_counts]
  · simp [h]

/-- The elimination part leaves the allocator log, the child flag and the incoming delay
count alone, and keeps a null `contrib` null and a non-null one non-null. -/
theorem indef_eliminate_frame {α : Type} (K : KernelOutcome α) (heap : Nat → Nat)
    (sizeofT : Nat) (align_lda : Int → Int) (snode : SymbolicNode) (s : FactorState α) :
    (indef_eliminate K heap sizeofT align_lda snode s).contrib_alloc = s.contrib_alloc ∧
    (indef_eliminate K heap sizeofT align_lda snode s).node.first_child
      = s.node.first_child ∧
    (indef_eliminate K heap sizeofT align_lda snode s).node.ndelay_in = s.node.ndelay_in ∧
    ((indef_eliminate K heap sizeofT align_lda snode s).node.contrib = none
      ↔ s.node.contrib = none) := by
  simp only [indef_eliminate, indef_second_pass]
  split_ifs <;> simp

/-- C3: in `factor_node_indef` with `n = ncol + ndelay_in`, when stage 1 returns `nelim1`
with `0 ≤ nelim1 ≤ n` and stage 2 (run only when `nelim1 < n`) returns `nelim2` with
`0 ≤ nelim2 ≤ n - nelim1` (`nelim2 = 0` when stage 2 is not run): on return
`nelim = nelim1 + nelim2 ≤ n`, `ndelay_out = n - nelim`, `not_first_pass` has grown by
`n - nelim1` and `not_second_pass` by `n - nelim`. -/
theorem factor_node_indef_counts {α : Type} [Zero α] (K : KernelOutcome α)
    (heap : Nat → Nat) (sizeofT : Nat) (align_lda : Int → Int) (snode : SymbolicNode)
    (s : FactorState α)
    (h1 : 0 ≤ K.ldlt_app_nelim ∧ K.ldlt_app_nelim ≤ snode.ncol + s.node.ndelay_in)
    (h2 : K.ldlt_app_nelim < snode.ncol + s.node.ndelay_in →
      0 ≤ K.ldlt_tpp_nelim ∧
      K.ldlt_tpp_nelim ≤ snode.ncol + s.node.ndelay_in - K.ldlt_app_nelim) :
    (factor_node_indef K heap sizeofT align_lda snode s).node.nelim
      = K.ldlt_app_nelim +
        (if K.ldlt_app_nelim < snode.ncol + s.node.ndelay_in then K.ldlt_tpp_nelim else 0) ∧
    (factor_node_indef K heap sizeofT align_lda snode s).node.nelim
      ≤ snode.ncol + s.node.ndelay_in ∧
    (factor_node_indef K heap sizeofT align_lda snode s).node.ndelay_out
      = snode.ncol + s.node.ndelay_in
        - (factor_node_indef K heap sizeofT align_lda snode s).node.nelim ∧
    (factor_node_indef K heap sizeofT align_lda snode s).stats.not_first_pass
      = s.stats.not_first_pass + (snode.ncol + s.node.ndelay_in - K.ldlt_app_nelim) ∧
    (factor_node_indef K heap sizeofT align_lda snode s).stats.not_second_pass
      = s.stats.not_second_pass +
        (snode.ncol + s.node.ndelay_in
          - (factor_node_indef K heap sizeofT align_lda snode s).node.nelim) := by
  obtain ⟨e1, e2, e3, e4⟩ := indef_eliminate_counts K heap sizeofT align_lda snode s
  obtain ⟨k1, k2, _, k4⟩ := indef_contrib_lifecycle_keeps
    (snode.nrow + s.node.ndelay_in) (snode.ncol + s.node.ndelay_in)
    (indef_eliminate K heap sizeofT align_lda snode s)
  simp only [factor_node_indef]
  rw [k1, k2, k4, e3, e4, e2, e1]
  by_cases h : K.ldlt_app_nelim < snode.ncol + s.node.ndelay_in
  · have := h2 h
    simp only [h, if_true]
    refine ⟨trivial, ?_, trivial, trivial, trivial⟩
    omega
  · simp only [h, if_false]
    refine ⟨trivial, ?_, trivial, ?_, ?_⟩ <;> omega

/-- Witness for C3: `m = 6`, `n = 4`, stage 1 eliminates 3 columns and stage 2 the last. -/
theorem factor_node_indef_counts_witness :
    (factor_node_indef (sample_kernels ℚ (-1) 3 1) sample_heap 8 id { nrow := 6, ncol := 4 }
      (sample_state ℚ false 0)).node.nelim = 4 ∧
    (factor_node_indef (sample_kernels ℚ (-1) 3 1) sample_heap 8 id { nrow := 6, ncol := 4 }
      (sample_state ℚ false 0)).node.ndelay_out = 0 ∧
    (factor_node_indef (sample_kernels ℚ (-1) 3 1) sample_heap 8 id { nrow := 6, ncol := 4 }
      (sample_state ℚ false 0)).stats.not_first_pass = 1 ∧
    (factor_node_indef (sample_kernels ℚ (-1) 3 1) sample_heap 8 id { nrow := 6, ncol := 4 }
      (sample_state ℚ false 0)).stats.not_second_pass = 0 := by
  have h := factor_node_indef_counts (sample_kernels ℚ (-1) 3 1) sample_heap 8 id
    { nrow := 6, ncol := 4 } (sample_state ℚ false 0)
    (by simp [sample_kernels, sample_state, sample_node])
    (by simp [sample_kernels, sample_state, sample_node])
  obtain ⟨h1, _, h3, h4, h5⟩ := h
  have e : (factor_node_indef (sample_kernels ℚ (-1) 3 1) sample_heap 8 id
      { nrow := 6, ncol := 4 } (sample_state ℚ false 0)).node.nelim = 4 := by
    rw [h1]; simp [sample_kernels, sample_state, sample_node]
  rw [e] at h3 h5
  refine ⟨e, ?_, ?_, ?_⟩
  · rw [h3]; simp [sample_state, sample_node]
  · rw [h4]; simp [sample_kernels, sample_state, sample_node, cpu_factor_stats.zero]
  · rw [h5]; simp [sample_state, sample_node, cpu_factor_stats.zero]

/-- C4 (as stated, refuted): on the positive-definite pivot-failure return `ndelay_out` is
not written (a node with 3 columns failing at pivot 0 returns with `nelim = 1` and
`ndelay_out = 0`, not `3 - 1`); and on positive-definite success a node with one incoming
delay returns with `ndelay_out = 0`, not `(3 + 1) - 3`. -/
theorem factor_node_ndelay_out_counterexample :
    (factor_node true (sample_kernels ℚ 0 0 0) sample_heap 8 id { nrow := 3, ncol := 3 }
      (sample_state ℚ false 0)).node.ndelay_out
      ≠ (3 + 0) - (factor_node true (sample_kernels ℚ 0 0 0) sample_heap 8 id
          { nrow := 3, ncol := 3 } (sample_state ℚ false 0)).node.nelim ∧
    (factor_node true (sample_kernels ℚ (-1) 0 0) sample_heap 8 id { nrow := 3, ncol := 3 }
      (sample_state ℚ false 1)).node.ndelay_out
      ≠ (3 + 1) - (factor_node true (sample_kernels ℚ (-1) 0 0) sample_heap 8 id
          { nrow := 3, ncol := 3 } (sample_state ℚ false 1)).node.nelim := by
  simp [factor_node, factor_node_posdef, sample_kernels, sample_state, sample_node]

/-- C4 (amended): with `n = ncol + ndelay_in`, the node record satisfies
`ndelay_out = n - nelim` when `factor_node` returns on the indefinite strategy, and on the
positive-definite strategy when the kernel reported success and the node has no incoming
delays; on the positive-definite return taken on pivot failure `ndelay_out` is not
written. -/
theorem factor_node_ndelay_out {α : Type} [Zero α] (posdef : Bool) (K : KernelOutcome α)
    (heap : Nat → Nat) (sizeofT : Nat) (align_lda : Int → Int) (snode : SymbolicNode)
    (s : FactorState α) :
    (posdef = false →
      (factor_node posdef K heap sizeofT align_lda snode s).node.ndelay_out
        = snode.ncol + s.node.ndelay_in
          - (factor_node posdef K heap sizeofT align_lda snode s).node.nelim) ∧
    (posdef = true → K.cholesky_flag = -1 → s.node.ndelay_in = 0 →
      (factor_node posdef K heap sizeofT align_lda snode s).node.ndelay_out
        = snode.ncol + s.node.ndelay_in
          - (factor_node posdef K heap sizeofT align_lda snode s).node.nelim) ∧
    (posdef = true → K.cholesky_flag ≠ -1 →
      (factor_node posdef K heap sizeofT align_lda snode s).node.ndelay_out
        = s.node.ndelay_out) := by
  refine ⟨?_, ?_, ?_⟩
  · intro hp
    subst hp
    obtain ⟨_, e2, _, _⟩ := indef_eliminate_counts K heap sizeofT align_lda snode s
    obtain ⟨k1, k2, _, _⟩ := indef_contrib_lifecycle_keeps
      (snode.nrow + s.node.ndelay_in) (snode.ncol + s.node.ndelay_in)
      (indef_eliminate K heap sizeofT align_lda snode s)
    simp only [factor_node, factor_node_indef, Bool.false_eq_true, if_false]
    rw [k1, k2, e2]
  · intro hp hf hd
    subst hp
    simp [factor_node, factor_node_posdef, hf, hd]
  · intro hp hf
    subst hp
    simp [factor_node, factor_node_posdef, hf]

/-- Witness for C4 (amended): the positive-definite strategy on a 4-column node without
incoming delays whose kernel succeeds, and the indefinite strategy on a node with `n = 4`
of which 3 columns are eliminated. -/
theorem factor_node_ndelay_out_witness :
    (factor_node true (sample_kernels ℚ (-1) 0 0) sample_heap 8 id { nrow := 4, ncol := 4 }
      (sample_state ℚ false 0)).node.ndelay_out
      = 4 + (sample_state ℚ false 0).node.ndelay_in
        - (factor_node true (sample_kernels ℚ (-1) 0 0) sample_heap 8 id
            { nrow := 4, ncol := 4 } (sample_state ℚ false 0)).node.nelim ∧
    (factor_node false (sample_kernels ℚ (-1) 3 0) sample_heap 8 id { nrow := 6, ncol := 4 }
      (sample_state ℚ false 0)).node.ndelay_out
      = 4 + (sample_state ℚ false 0).node.ndelay_in
        - (factor_node false (sample_kernels ℚ (-1) 3 0) sample_heap 8 id
            { nrow := 6, ncol := 4 } (sample_state ℚ false 0)).node.nelim :=
  ⟨(factor_node_ndelay_out true (sample_kernels ℚ (-1) 0 0) sample_heap 8 id
      { nrow := 4, ncol := 4 } (sample_state ℚ false 0)).2.1 rfl rfl rfl,
   (factor_node_ndelay_out false (sample_kernels ℚ (-1) 3 0) sample_heap 8 id
      { nrow := 6, ncol := 4 } (sample_state ℚ false 0)).1 rfl⟩

/-- An `int` product that is within the range of `int` is passed to `deallocate` with its
exact value. -/
theorem dealloc_size_exact (x : Int) (h0 : 0 ≤ x) (h : x < 2 ^ 31) :
    to_size_t (wrap_int x) = x.toNat := by
  have e : wrap_int x = x := by
    unfold wrap_int
    omega
  rw [e]
  unfold to_size_t SIZE_T_RANGE
  have : x % ((2 ^ 64 : Nat) : Int) = x := by
    apply Int.emod_eq_of_lt h0
    norm_num
    omega
  rw [this]

/-- C10 (code defect at line 142): `factor_node_indef` on a node with 46342 rows, 1 column,
no incoming delay and no first child, none of whose columns is eliminated.  Here
`m - n = 46341` and `(m-n)*(m-n) = 2147488281` is above the largest `int`; the `int` product
of line 142 wraps, and the size passed to `deallocate` is 18446744071562072601 instead of
2147488281.  The buffer is released and `contrib` is null, as the claim says. -/
theorem factor_node_indef_dealloc_overflow :
    (factor_node_indef (sample_kernels ℚ (-1) 0 0) sample_heap 8 id
      { nrow := 46342, ncol := 1 } (sample_state ℚ false 0)).node.nelim = 0 ∧
    (factor_node_indef (sample_kernels ℚ (-1) 0 0) sample_heap 8 id
      { nrow := 46342, ncol := 1 } (sample_state ℚ false 0)).node.contrib = none ∧
    (factor_node_indef (sample_kernels ℚ (-1) 0 0) sample_heap 8 id
      { nrow := 46342, ncol := 1 } (sample_state ℚ false 0)).contrib_alloc.deallocated
      = [18446744071562072601] ∧
    ((46342 + 0 - (1 + 0)) * (46342 + 0 - (1 + 0)) : Int) = 2147488281 ∧
    (2 ^ 31 - 1 : Int) < 2147488281 := by
  refine ⟨?_, ?_, ?_, by norm_num, by norm_num⟩
  · simp [factor_node_indef, indef_eliminate, indef_second_pass, indef_contrib_lifecycle,
      sample_kernels, sample_state, sample_node]
  · simp [factor_node_indef, indef_eliminate, indef_second_pass, indef_contrib_lifecycle,
      sample_kernels, sample_state, sample_node]
  · simp [factor_node_indef, indef_eliminate, indef_second_pass, indef_contrib_lifecycle,
      sample_kernels, sample_state, sample_node, ContribAlloc.deallocate, to_size_t,
      wrap_int, SIZE_T_RANGE]

/-- The contribution-block step of `factor_node_indef` when `(m-n)*(m-n)` is within the
range of `int`, with `nelim` the final elimination count: if `nelim = 0` and the node has
no first child, `(m-n)*(m-n)` is released to the allocator and `contrib` becomes null; if
`nelim = 0` and the node has a first child, nothing is released, a non-null `contrib`
stays non-null and its first `(m-n)*(m-n)` entries are zero; if `nelim > 0` the step
changes nothing.  Hence a non-null `contrib` is null on return exactly when `nelim = 0`
and the node has no first child. -/
theorem factor_node_indef_contrib_in_range {α : Type} [Zero α] (K : KernelOutcome α)
    (heap : Nat → Nat) (sizeofT : Nat) (align_lda : Int → Int) (snode : SymbolicNode)
    (s : FactorState α)
    (hfit : (snode.nrow + s.node.ndelay_in - (snode.ncol + s.node.ndelay_in))
      * (snode.nrow + s.node.ndelay_in - (snode.ncol + s.node.ndelay_in)) < 2 ^ 31) :
    (factor_node_indef K heap sizeofT align_lda snode s).node.nelim
      = (indef_eliminate K heap sizeofT align_lda snode s).node.nelim ∧
    ((factor_node_indef K heap sizeofT align_lda snode s).node.nelim = 0 →
      s.node.first_child = false →
        (factor_node_indef K heap sizeofT align_lda snode s).contrib_alloc.deallocated
          = s.contrib_alloc.deallocated ++
            [((snode.nrow + s.node.ndelay_in - (snode.ncol + s.node.ndelay_in))
              * (snode.nrow + s.node.ndelay_in - (snode.ncol + s.node.ndelay_in))).toNat] ∧
        (factor_node_indef K heap sizeofT align_lda snode s).node.contrib = none) ∧
    ((factor_node_indef K heap sizeofT align_lda snode s).node.nelim = 0 →
      s.node.first_child = true →
        (factor_node_indef K heap sizeofT align_lda snode s).contrib_alloc
          = s.contrib_alloc ∧
        ∀ c, s.node.contrib = some c →
          ∃ c1, (factor_node_indef K heap sizeofT align_lda snode s).node.contrib = some c1 ∧
            ∀ j : Nat, (j : Int) <
              (snode.nrow + s.node.ndelay_in - (snode.ncol + s.node.ndelay_in))
                * (snode.nrow + s.node.ndelay_in - (snode.ncol + s.node.ndelay_in)) →
              c1 j = 0) ∧
    (0 < (factor_node_indef K heap sizeofT align_lda snode s).node.nelim →
      factor_node_indef K heap sizeofT align_lda snode s
        = indef_eliminate K heap sizeofT align_lda snode s) ∧
    (s.node.contrib ≠ none →
      ((factor_node_indef K heap sizeofT align_lda snode s).node.contrib = none ↔
        (factor_node_indef K heap sizeofT align_lda snode s).node.nelim = 0 ∧
          s.node.first_child = false)) := by
  obtain ⟨f1, f2, _, f4⟩ := indef_eliminate_frame K heap sizeofT align_lda snode s
  obtain ⟨k1, _, _, _⟩ := indef_contrib_lifecycle_keeps
    (snode.nrow + s.node.ndelay_in) (snode.ncol + s.node.ndelay_in)
    (indef_eliminate K heap sizeofT align_lda snode s)
  simp only [factor_node_indef] at k1 ⊢
  rw [k1]
  generalize indef_eliminate K heap sizeofT align_lda snode s = e at f1 f2 f4 k1 ⊢
  have hsz := dealloc_size_exact _ (mul_self_nonneg
    (snode.nrow + s.node.ndelay_in - (snode.ncol + s.node.ndelay_in))) hfit
  refine ⟨rfl, ?_, ?_, ?_, ?_⟩
  · intro h0 hc
    rw [← f2] at hc
    have hcond : e.node.nelim = 0 ∧ e.node.first_child = false := ⟨h0, hc⟩
    simp only [indef_contrib_lifecycle, if_pos hcond, ContribAlloc.deallocate, f1, hsz]
    exact ⟨trivial, trivial⟩
  · intro h0 hc
    rw [← f2] at hc
    refine ⟨by simp [indef_contrib_lifecycle, h0, hc, f1], ?_⟩
    intro c hsc
    have hne : e.node.contrib ≠ none := by
      rw [Ne, f4, hsc]; simp
    obtain ⟨c0, hc0⟩ := Option.ne_none_iff_exists'.mp hne
    refine ⟨memset_zero c0 ((snode.nrow + s.node.ndelay_in - (snode.ncol + s.node.ndelay_in))
      * (snode.nrow + s.node.ndelay_in - (snode.ncol + s.node.ndelay_in))).toNat, ?_, ?_⟩
    · simp [indef_contrib_lifecycle, h0, hc, hc0]
    · intro j hj
      have : j < ((snode.nrow + s.node.ndelay_in - (snode.ncol + s.node.ndelay_in))
        * (snode.nrow + s.node.ndelay_in - (snode.ncol + s.node.ndelay_in))).toNat := by
        omega
      simp only [memset_zero]
      rw [if_pos this]
  · intro hpos
    have hne : e.node.nelim ≠ 0 := by omega
    simp [indef_contrib_lifecycle, hne]
  · intro hs
    have hne : e.node.contrib ≠ none := by
      rw [Ne, f4]; exact hs
    rw [← f2]
    unfold indef_contrib_lifecycle
    split_ifs with h1 h2
    · simp [h1.1, h1.2]
    · have : e.node.first_child ≠ false := fun hf => h1 ⟨h2, hf⟩
      simp [h2, this, hne]
    · simp [h2, hne]

/-! ## Theorems: workspace -/

/-- When `sz + align` fits in size_t, `alloc_and_align(sz)` records a capacity above `sz`. -/
theorem alloc_and_align_capacity (heap : Nat → Nat) (w : Workspace) (sz : Nat)
    (h : sz + Workspace.align < SIZE_T_RANGE) :
    sz < (Workspace.alloc_and_align heap w sz).sz_ := by
  simp only [Workspace.alloc_and_align, std_align, Workspace.align, SIZE_T_RANGE] at h ⊢
  rw [Nat.mod_eq_of_lt h]
  split_ifs with hc
  · omega
  · simp only []
    omega

/-- One `get_ptr` call whose byte count fits in size_t: the capacity afterwards covers the
request and is not below the capacity before; the state changes only when the capacity
before was below the request. -/
theorem get_ptr_step (heap : Nat → Nat) (sizeofT : Nat) (w : Workspace) (len : Nat)
    (h : len * sizeofT + Workspace.align < SIZE_T_RANGE) :
    len * sizeofT ≤ (Workspace.get_ptr heap sizeofT w len).2.sz_ ∧
    w.sz_ ≤ (Workspace.get_ptr heap sizeofT w len).2.sz_ ∧
    ((Workspace.get_ptr heap sizeofT w len).2.nalloc ≠ w.nalloc → w.sz_ < len * sizeofT) ∧
    (len * sizeofT ≤ w.sz_ → (Workspace.get_ptr heap sizeofT w len).2 = w) := by
  have hlt : len * sizeofT < SIZE_T_RANGE := by
    simp only [Workspace.align] at h; omega
  have hcap := alloc_and_align_capacity heap w (len * sizeofT) h
  simp only [Workspace.get_ptr, Nat.mod_eq_of_lt hlt]
  split_ifs with hc
  · refine ⟨by omega, by omega, fun _ => hc, fun hle => by omega⟩
  · refine ⟨by omega, le_refl _, fun hne => absurd rfl hne, fun _ => rfl⟩

/-- Across a sequence of `get_ptr` calls whose byte counts fit in size_t the capacity does
not decrease. -/
theorem run_capacity_mono (heap : Nat → Nat) (calls : List (Nat × Nat)) (w : Workspace)
    (h : ∀ c ∈ calls, c.2 * c.1 + Workspace.align < SIZE_T_RANGE) :
    w.sz_ ≤ (Workspace.run heap w calls).sz_ := by
  induction calls generalizing w with
  | nil => simp [Workspace.run]
  | cons c cs ih =>
    have hc := (get_ptr_step heap c.1 w c.2 (h c (List.mem_cons_self _ _))).2.1
    have hrest := ih (Workspace.get_ptr heap c.1 w c.2).2
      (fun c1 hc1 => h c1 (List.mem_cons_of_mem _ hc1))
    simp only [Workspace.run, List.foldl_cons] at hrest ⊢
    omega

/-- C8 (as stated, refuted): on a workspace constructed with size 0 (32 bytes allocated at
address 4112, of which 16 remain after alignment), `get_ptr<T>(2^61)` with `sizeof(T) = 8`
does not reallocate, because `len*sizeof(T)` wraps to 0 in size_t; the capacity stays 16
bytes, below the `2^61 * 8` bytes of `len` elements. -/
theorem workspace_get_ptr_counterexample :
    2 ^ 61 < SIZE_T_RANGE ∧
    (Workspace.ctor sample_heap 0).sz_ = 16 ∧
    (Workspace.get_ptr sample_heap 8 (Workspace.ctor sample_heap 0) (2 ^ 61)).2
      = Workspace.ctor sample_heap 0 ∧
    (Workspace.get_ptr sample_heap 8 (Workspace.ctor sample_heap 0) (2 ^ 61)).2.sz_
      < 2 ^ 61 * 8 := by
  simp [SIZE_T_RANGE, Workspace.ctor, Workspace.get_ptr, Workspace.alloc_and_align,
    std_align, Workspace.align, sample_heap]

/-- C8 (amended): for every workspace state `w` (in particular one constructed with any
initial size) and `get_ptr` calls whose byte count `len*sizeof(T) + 32` fits in size_t:
after `get_ptr<T>(len1)` the recorded capacity is at least `len1*sizeof(T)`; the call
reallocates only when the capacity before it was below `len1*sizeof(T)`; the capacity does
not decrease over the call nor over any later calls `mid`; and a call with `len2 ≤ len1`
made after them does not reallocate and leaves the workspace state unchanged. -/
theorem workspace_get_ptr_capacity (heap : Nat → Nat) (w : Workspace)
    (sizeofT len1 len2 : Nat) (mid : List (Nat × Nat))
    (h1 : len1 * sizeofT + Workspace.align < SIZE_T_RANGE)
    (hmid : ∀ c ∈ mid, c.2 * c.1 + Workspace.align < SIZE_T_RANGE)
    (h2 : len2 ≤ len1) :
    len1 * sizeofT ≤ (Workspace.get_ptr heap sizeofT w len1).2.sz_ ∧
    ((Workspace.get_ptr heap sizeofT w len1).2.nalloc ≠ w.nalloc →
      w.sz_ < len1 * sizeofT) ∧
    w.sz_ ≤ (Workspace.get_ptr heap sizeofT w len1).2.sz_ ∧
    (Workspace.get_ptr heap sizeofT w len1).2.sz_
      ≤ (Workspace.run heap (Workspace.get_ptr heap sizeofT w len1).2 mid).sz_ ∧
    (Workspace.get_ptr heap sizeofT
        (Workspace.run heap (Workspace.get_ptr heap sizeofT w len1).2 mid) len2).2
      = Workspace.run heap (Workspace.get_ptr heap sizeofT w len1).2 mid := by
  obtain ⟨a1, a2, a3, _⟩ := get_ptr_step heap sizeofT w len1 h1
  have hm := run_capacity_mono heap mid (Workspace.get_ptr heap sizeofT w len1).2 hmid
  have hle : len2 * sizeofT ≤ len1 * sizeofT := Nat.mul_le_mul_right _ h2
  have h2fit : len2 * sizeofT + Workspace.align < SIZE_T_RANGE := by omega
  refine ⟨a1, a3, a2, hm, ?_⟩
  exact (get_ptr_step heap sizeofT _ len2 h2fit).2.2.2 (by omega)

/-- Witness for C8 (amended): a workspace constructed with size 0, then `get_ptr<T>(10)`,
a later `get_ptr<T>(3)` and `get_ptr<T>(20)`, and finally `get_ptr<T>(7)`, with
`sizeof(T) = 8`. -/
theorem workspace_get_ptr_capacity_witness :
    10 * 8 ≤ (Workspace.get_ptr sample_heap 8 (Workspace.ctor sample_heap 0) 10).2.sz_ ∧
    (Workspace.get_ptr sample_heap 8
        (Workspace.run sample_heap
          (Workspace.get_ptr sample_heap 8 (Workspace.ctor sample_heap 0) 10).2
          [(8, 3), (8, 20)]) 7).2
      = Workspace.run sample_heap
          (Workspace.get_ptr sample_heap 8 (Workspace.ctor sample_heap 0) 10).2
          [(8, 3), (8, 20)] :=
  have h := workspace_get_ptr_capacity sample_heap (Workspace.ctor sample_heap 0) 8 10 7
    [(8, 3), (8, 20)] (by decide) (by decide) (by decide)
  ⟨h.1, h.2.2.2.2⟩

/-! ## Theorems: subtree driver, main loop -/

/-- The node factorizer of the driver reports a terminal failure exactly in
positive-definite mode when the kernel reports a failure. -/
theorem spec_factor_node_fatal {α : Type} (posdef : Bool) (K : NodeKernels α)
    (node : cpu_node_data α) (stats : cpu_factor_stats) :
    (spec_factor_node posdef K node stats).fatal
      = (posdef && K.cholesky_failure.isSome) := by
  cases posdef <;> cases h : K.cholesky_failure <;> simp [spec_factor_node, h]

/-- The node factorizer of the driver leaves `num_neg` and `num_zero` alone. -/
theorem spec_factor_node_keeps {α : Type} (posdef : Bool) (K : NodeKernels α)
    (node : cpu_node_data α) (stats : cpu_factor_stats) :
    (spec_factor_node posdef K node stats).stats.num_neg = stats.num_neg ∧
    (spec_factor_node posdef K node stats).stats.num_zero = stats.num_zero := by
  cases posdef <;> cases h : K.cholesky_failure <;> simp [spec_factor_node, h] <;>
    split_ifs <;> simp

/-- An iteration without terminal failure performs its three operations and reports no
failure; it keeps the node count, `num_neg` and `num_zero`. -/
theorem factor_iteration_ok {α : Type} (posdef : Bool) (E : Externals α) (ni : Nat)
    (S : SubtreeState α)
    (h : (posdef && (E.kernels ni).cholesky_failure.isSome) = false) :
    (factor_iteration posdef E ni S).2 = false ∧
    (factor_iteration posdef E ni S).1.log
      = S.log ++ [Op.assemble ni, Op.factorize ni, Op.form_update ni] ∧
    (factor_iteration posdef E ni S).1.nnodes_ = S.nnodes_ ∧
    (factor_iteration posdef E ni S).1.stats.num_neg = S.stats.num_neg ∧
    (factor_iteration posdef E ni S).1.stats.num_zero = S.stats.num_zero := by
  simp only [factor_iteration, spec_factor_node_fatal, h]
  simp [(spec_factor_node_keeps posdef (E.kernels ni) _ _).1,
    (spec_factor_node_keeps posdef (E.kernels ni) _ _).2]

/-- One more iteration of the main loop: skipped after a terminal failure. -/
theorem main_loop_steps_succ {α : Type} (posdef : Bool) (E : Externals α)
    (S : SubtreeState α) (k : Nat) :
    main_loop_steps posdef E S (k + 1)
      = if (main_loop_steps posdef E S k).2 then main_loop_steps posdef E S k
        else factor_iteration posdef E k (main_loop_steps posdef E S k).1 := by
  simp only [main_loop_steps]
  rw [List.range_succ, List.foldl_append]
  rfl

/-- As long as no terminal failure occurs the main loop performs all operations of the
nodes visited, in order, and keeps the node count, `num_neg` and `num_zero`. -/
theorem main_loop_steps_ok {α : Type} (posdef : Bool) (E : Externals α)
    (S : SubtreeState α) (k : Nat)
    (h : ∀ j, j < k → (posdef && (E.kernels j).cholesky_failure.isSome) = false) :
    (main_loop_steps posdef E S k).2 = false ∧
    (main_loop_steps posdef E S k).1.log = S.log ++ full_log k ∧
    (main_loop_steps posdef E S k).1.nnodes_ = S.nnodes_ ∧
    (main_loop_steps posdef E S k).1.stats.num_neg = S.stats.num_neg ∧
    (main_loop_steps posdef E S k).1.stats.num_zero = S.stats.num_zero := by
  induction k with
  | zero => simp [main_loop_steps, full_log]
  | succ k ih =>
    obtain ⟨i1, i2, i3, i4, i5⟩ := ih (fun j hj => h j (Nat.lt_succ_of_lt hj))
    obtain ⟨a1, a2, a3, a4, a5⟩ := factor_iteration_ok posdef E k
      (main_loop_steps posdef E S k).1 (h k (Nat.lt_succ_self k))
    rw [main_loop_steps_succ, i1]
    simp only [Bool.false_eq_true, if_false]
    refine ⟨a1, ?_, by rw [a3, i3], by rw [a4, i4], by rw [a5, i5]⟩
    rw [a2, i2, full_log, List.append_assoc]

/-- Closed form of the sentinel loop over `k` columns: an even slot `2*i` with `i < k` that
holds the sentinel receives the value of slot `2*i+1`; every other slot is unchanged. -/
theorem repair_fold_apply {α : Type} [DecidableEq α] (infinity : α) (d : Nat → α)
    (k x : Nat) :
    (List.range k).foldl
        (fun d i => if d (2 * i) = infinity then Function.update d (2 * i) (d (2 * i + 1))
          else d) d x
      = if x % 2 = 0 ∧ x / 2 < k ∧ d x = infinity then d (x + 1) else d x := by
  induction k generalizing x with
  | zero => simp
  | succ k ih =>
    rw [List.range_succ, List.foldl_append]
    simp only [List.foldl_cons, List.foldl_nil]
    have e0 := ih (2 * k)
    have e1 := ih (2 * k + 1)
    have hk0 : ¬ (2 * k % 2 = 0 ∧ 2 * k / 2 < k ∧ d (2 * k) = infinity) := by
      intro h; omega
    have hk1 : ¬ ((2 * k + 1) % 2 = 0 ∧ (2 * k + 1) / 2 < k ∧ d (2 * k + 1) = infinity) := by
      intro h; omega
    rw [if_neg hk0] at e0
    rw [if_neg hk1] at e1
    rw [e0, e1]
    by_cases hinf : d (2 * k) = infinity
    · rw [if_pos hinf]
      by_cases hx : x = 2 * k
      · subst hx
        rw [Function.update_same]
        have : 2 * k % 2 = 0 ∧ 2 * k / 2 < k + 1 ∧ d (2 * k) = infinity :=
          ⟨by omega, by omega, hinf⟩
        rw [if_pos this]
      · rw [Function.update_noteq hx, ih x]
        by_cases hc : x % 2 = 0 ∧ x / 2 < k ∧ d x = infinity
        · have : x % 2 = 0 ∧ x / 2 < k + 1 ∧ d x = infinity :=
            ⟨hc.1, by omega, hc.2.2⟩
          rw [if_pos hc, if_pos this]
        · have : ¬ (x % 2 = 0 ∧ x / 2 < k + 1 ∧ d x = infinity) := by
            intro h
            apply hc
            refine ⟨h.1, ?_, h.2.2⟩
            have := h.1
            have := h.2.1
            omega
          rw [if_neg hc, if_neg this]
    · rw [if_neg hinf, ih x]
      by_cases hc : x % 2 = 0 ∧ x / 2 < k ∧ d x = infinity
      · have : x % 2 = 0 ∧ x / 2 < k + 1 ∧ d x = infinity :=
          ⟨hc.1, by omega, hc.2.2⟩
        rw [if_pos hc, if_pos this]
      · have : ¬ (x % 2 = 0 ∧ x / 2 < k + 1 ∧ d x = infinity) := by
          intro h
          apply hc
          refine ⟨h.1, ?_, h.2.2⟩
          by_contra hge
          have hxk : x = 2 * k := by
            have := h.1
            have := h.2.1
            omega
          rw [hxk] at h
          exact hinf h.2.2
        rw [if_neg hc, if_neg this]

/-- Closed form of `repair_infinity`. -/
theorem repair_infinity_apply {α : Type} [DecidableEq α] (infinity : α) (d : Nat → α)
    (nelim : Int) (x : Nat) :
    repair_infinity infinity d nelim x
      = if x % 2 = 0 ∧ x / 2 < nelim.toNat ∧ d x = infinity then d (x + 1) else d x :=
  repair_fold_apply infinity d nelim.toNat x

/-- The first `k` steps of the indefinite statistics pass: the statistics are those of
`post_pass_stats`; nodes below `k` have their storage repaired and are otherwise
unchanged; nodes from `k` on are unchanged. -/
theorem count_stats_upto {α : Type} [LinearOrderedField α] (infinity : α)
    (S : SubtreeState α) (k : Nat) :
    ((List.range k).foldl
        (fun S ni =>
          { S with nodes_ := Function.update S.nodes_ ni
                     (count_node infinity (S.nodes_ ni) S.stats).1,
                   stats := (count_node infinity (S.nodes_ ni) S.stats).2 }) S).stats
      = post_pass_stats infinity S.nodes_ S.stats k ∧
    (∀ j, ((List.range k).foldl
        (fun S ni =>
          { S with nodes_ := Function.update S.nodes_ ni
                     (count_node infinity (S.nodes_ ni) S.stats).1,
                   stats := (count_node infinity (S.nodes_ ni) S.stats).2 }) S).nodes_ j
      = if j < k then
          { S.nodes_ j with d := repair_infinity infinity (S.nodes_ j).d (S.nodes_ j).nelim }
        else S.nodes_ j) := by
  induction k with
  | zero => simp [post_pass_stats]
  | succ k ih =>
    obtain ⟨ih1, ih2⟩ := ih
    rw [List.range_succ, List.foldl_append]
    simp only [List.foldl_cons, List.foldl_nil]
    have hk := ih2 k
    simp only [lt_irrefl, if_false] at hk
    refine ⟨?_, ?_⟩
    · rw [hk, ih1, post_pass_stats]
    · intro j
      by_cases hj : j = k
      · subst hj
        rw [Function.update_same, hk]
        simp [count_node]
      · rw [Function.update_noteq hj, ih2 j]
        by_cases hlt : j < k
        · have : j < k + 1 := by omega
          rw [if_pos hlt, if_pos this]
        · have : ¬ j < k + 1 := by omega
          rw [if_neg hlt, if_neg this]

/-- The indefinite statistics pass as a whole. -/
theorem count_stats_indef {α : Type} [LinearOrderedField α] (infinity : α)
    (S : SubtreeState α) :
    (count_stats false infinity S).stats
      = post_pass_stats infinity S.nodes_ S.stats S.nnodes_.toNat ∧
    (∀ j, (count_stats false infinity S).nodes_ j
      = if j < S.nnodes_.toNat then
          { S.nodes_ j with d := repair_infinity infinity (S.nodes_ j).d (S.nodes_ j).nelim }
        else S.nodes_ j) := by
  have h := count_stats_upto infinity S S.nnodes_.toNat
  simpa [count_stats] using h

/-- C9: in the indefinite statistics pass, for a node `ni` and an eliminated pivot index
`i < nelim` whose slots hold `d[2i] = +infinity` and `d[2i+1] = v` before the pass, the
storage left by the pass is the repaired storage, in which `d[2i] = v` and `d[2i+1] = v`;
the classification of the node reads this repaired storage; every slot `d[2j]` with
`j < nelim` that is not the sentinel, and every slot `d[2j+1]`, is unchanged. -/
theorem repair_infinity_sentinel {α : Type} [LinearOrderedField α] (infinity : α)
    (S : SubtreeState α) (ni i : Nat) (v : α)
    (hni : (ni : Int) < S.nnodes_) (hi : (i : Int) < (S.nodes_ ni).nelim)
    (hinf : (S.nodes_ ni).d (2 * i) = infinity) (hv : (S.nodes_ ni).d (2 * i + 1) = v) :
    ((count_stats false infinity S).nodes_ ni).d
      = repair_infinity infinity (S.nodes_ ni).d (S.nodes_ ni).nelim ∧
    (∀ stats, (count_node infinity (S.nodes_ ni) stats).2
      = classify_loop (repair_infinity infinity (S.nodes_ ni).d (S.nodes_ ni).nelim)
          (S.nodes_ ni).nelim (S.nodes_ ni).nelim.toNat 0 stats) ∧
    repair_infinity infinity (S.nodes_ ni).d (S.nodes_ ni).nelim (2 * i) = v ∧
    repair_infinity infinity (S.nodes_ ni).d (S.nodes_ ni).nelim (2 * i + 1) = v ∧
    (∀ j : Nat, (j : Int) < (S.nodes_ ni).nelim → (S.nodes_ ni).d (2 * j) ≠ infinity →
      repair_infinity infinity (S.nodes_ ni).d (S.nodes_ ni).nelim (2 * j)
        = (S.nodes_ ni).d (2 * j)) ∧
    (∀ j : Nat, repair_infinity infinity (S.nodes_ ni).d (S.nodes_ ni).nelim (2 * j + 1)
        = (S.nodes_ ni).d (2 * j + 1)) := by
  have hodd : ∀ j : Nat,
      repair_infinity infinity (S.nodes_ ni).d (S.nodes_ ni).nelim (2 * j + 1)
        = (S.nodes_ ni).d (2 * j + 1) := by
    intro j
    rw [repair_infinity_apply]
    have : ¬ ((2 * j + 1) % 2 = 0 ∧ (2 * j + 1) / 2 < (S.nodes_ ni).nelim.toNat ∧
        (S.nodes_ ni).d (2 * j + 1) = infinity) := by
      intro h; omega
    rw [if_neg this]
  refine ⟨?_, fun _ => rfl, ?_, ?_, ?_, hodd⟩
  · have hlt : ni < S.nnodes_.toNat := by omega
    rw [(count_stats_indef infinity S).2 ni, if_pos hlt]
  · rw [repair_infinity_apply]
    have : 2 * i % 2 = 0 ∧ 2 * i / 2 < (S.nodes_ ni).nelim.toNat ∧
        (S.nodes_ ni).d (2 * i) = infinity := ⟨by omega, by omega, hinf⟩
    rw [if_pos this, hv]
  · rw [hodd i, hv]
  · intro j _ hne
    rw [repair_infinity_apply]
    have : ¬ (2 * j % 2 = 0 ∧ 2 * j / 2 < (S.nodes_ ni).nelim.toNat ∧
        (S.nodes_ ni).d (2 * j) = infinity) := fun h => hne h.2.2
    rw [if_neg this]

/-! ## Theorems: classification of pivot sequences -/

/-- The loop body adds to the three pivot counters what it adds to zero counters, and
leaves the other statistics alone. -/
theorem classify_body_additive {α : Type} [LinearOrderedField α] (d : Nat → α) (i : Nat)
    (stats : cpu_factor_stats) :
    (classify_body d i stats).2.num_neg
      = stats.num_neg + (classify_body d i cpu_factor_stats.zero).2.num_neg ∧
    (classify_body d i stats).2.num_zero
      = stats.num_zero + (classify_body d i cpu_factor_stats.zero).2.num_zero ∧
    (classify_body d i stats).2.num_two
      = stats.num_two + (classify_body d i cpu_factor_stats.zero).2.num_two := by
  simp only [classify_body, cpu_factor_stats.zero]
  split_ifs <;> simp

/-- On storage that holds the pivot `p` at column `i`, the loop body advances by the
columns of `p` and classifies `p`. -/
theorem classify_body_of_encodes {α : Type} [LinearOrderedField α] (d : Nat → α) (i : Nat)
    (p : Pivot α) (ps : List (Pivot α)) (stats : cpu_factor_stats)
    (h : Encodes d i (p :: ps)) :
    classify_body d i stats = (i + p.cols, p.classify stats) := by
  cases p with
  | one a =>
    obtain ⟨h0, h1, _⟩ := h
    simp [classify_body, Pivot.classify, Pivot.storage, Pivot.cols, h0, h1]
  | two a11 a21 a22 =>
    obtain ⟨h0, h1, hne, h2, _⟩ := h
    simp [classify_body, Pivot.classify, Pivot.storage, Pivot.cols, h0, h1, h2, hne]

/-- The rest of an encoded sequence is encoded after the columns of its first pivot. -/
theorem encodes_tail {α : Type} [Zero α] (d : Nat → α) (i : Nat) (p : Pivot α)
    (ps : List (Pivot α)) (h : Encodes d i (p :: ps)) : Encodes d (i + p.cols) ps := by
  cases p with
  | one a => exact h.2.2
  | two a11 a21 a22 => exact h.2.2.2.2

/-- Every 2x2 pivot of an encoded sequence has a nonzero off-diagonal entry. -/
theorem encodes_coupled {α : Type} [LinearOrderedField α] (d : Nat → α)
    (ps : List (Pivot α)) (i : Nat) (h : Encodes d i ps) : ∀ p ∈ ps, p.Coupled := by
  induction ps generalizing i with
  | nil => intro p hp; cases hp
  | cons q qs ih =>
    intro p hp
    rcases List.mem_cons.mp hp with hq | hq
    · subst hq
      cases p with
      | one a => trivial
      | two a11 a21 a22 => exact h.2.2.1
    · exact ih _ (encodes_tail d i q qs h) p hq

/-- A pivot covers at least one column. -/
theorem pivot_cols_pos {α : Type} (p : Pivot α) : 1 ≤ p.cols := by
  cases p <;> simp [Pivot.cols]

/-- On storage that holds the pivot sequence `ps` from column `i` up to column `nelim`,
the classification loop with enough fuel classifies the pivots of `ps` in order. -/
theorem classify_loop_of_encodes {α : Type} [LinearOrderedField α] (d : Nat → α)
    (nelim : Int) (ps : List (Pivot α)) (i fuel : Nat) (stats : cpu_factor_stats)
    (h : Encodes d i ps) (hcols : ((i + pivot_cols ps : Nat) : Int) = nelim)
    (hfuel : pivot_cols ps ≤ fuel) :
    classify_loop d nelim fuel i stats = classify_pivots ps stats := by
  induction ps generalizing i fuel stats with
  | nil =>
    have hi : ¬ ((i : Int) < nelim) := by
      simp only [pivot_cols] at hcols; omega
    cases fuel with
    | zero => simp [classify_loop, classify_pivots]
    | succ f => simp [classify_loop, classify_pivots, hi]
  | cons p ps ih =>
    have hp := pivot_cols_pos p
    simp only [pivot_cols] at hcols hfuel
    cases fuel with
    | zero => omega
    | succ f =>
      have hi : (i : Int) < nelim := by omega
      simp only [classify_loop, hi, if_true, classify_body_of_encodes d i p ps stats h]
      rw [ih (i + p.cols) f (p.classify stats) (encodes_tail d i p ps h)
        (by rw [← hcols]; congr 1; omega) (by omega)]
      simp [classify_pivots]

/-- More fuel than the number of columns does not change the result of the loop: the loop
ends at its exit test. -/
theorem classify_loop_fuel {α : Type} [LinearOrderedField α] (d : Nat → α) (nelim : Int)
    (fuel i : Nat) (stats : cpu_factor_stats) (h : (nelim - i).toNat ≤ fuel) :
    classify_loop d nelim fuel i stats
      = classify_loop d nelim (nelim - i).toNat i stats := by
  induction fuel using Nat.strong_induction_on generalizing i stats with
  | _ fuel ih =>
    by_cases hi : (i : Int) < nelim
    · obtain ⟨f, rfl⟩ : ∃ f, fuel = f + 1 := ⟨fuel - 1, by omega⟩
      obtain ⟨g, hg⟩ : ∃ g, (nelim - i).toNat = g + 1 := ⟨(nelim - i).toNat - 1, by omega⟩
      rw [hg]
      simp only [classify_loop, hi, if_true]
      have hadv : (classify_body d i stats).1 = i + 1 ∨ (classify_body d i stats).1 = i + 2 := by
        simp only [classify_body]
        split_ifs <;> simp
      have e1 := ih f (by omega) (classify_body d i stats).1 (classify_body d i stats).2
        (by rcases hadv with e | e <;> rw [e] <;> push_cast <;> omega)
      have e2 := ih g (by omega) (classify_body d i stats).1 (classify_body d i stats).2
        (by rcases hadv with e | e <;> rw [e] <;> push_cast <;> omega)
      rw [e1, e2]
    · have h0 : (nelim - i).toNat = 0 := by omega
      rw [h0]
      cases fuel with
      | zero => rfl
      | succ f => simp [classify_loop, hi]

/-- Classifying a pivot sequence adds to `num_neg` and `num_zero` the sums of what each
pivot adds. -/
theorem classify_pivots_counts {α : Type} [LinearOrderedField α] (ps : List (Pivot α))
    (stats : cpu_factor_stats) :
    (classify_pivots ps stats).num_neg = stats.num_neg + (ps.map Pivot.neg_added).sum ∧
    (classify_pivots ps stats).num_zero = stats.num_zero + (ps.map Pivot.zero_added).sum := by
  induction ps generalizing stats with
  | nil => simp [classify_pivots]
  | cons p ps ih =>
    obtain ⟨i1, i2⟩ := ih (p.classify stats)
    obtain ⟨a1, a2, _⟩ := classify_body_additive p.storage 0 stats
    simp only [classify_pivots, List.foldl_cons, List.map_cons, List.sum_cons] at i1 i2 ⊢
    rw [i1, i2]
    simp only [Pivot.classify, Pivot.neg_added, Pivot.zero_added]
    rw [a1, a2]
    constructor <;> ring

/-- Classifying two sequences one after the other classifies their concatenation. -/
theorem classify_pivots_append {α : Type} [LinearOrderedField α] (ps qs : List (Pivot α))
    (stats : cpu_factor_stats) :
    classify_pivots (ps ++ qs) stats = classify_pivots qs (classify_pivots ps stats) := by
  simp [classify_pivots, List.foldl_append]

/-- The statistics pass on nodes that hold pivot sequences classifies all their pivots. -/
theorem post_pass_stats_of_holds {α : Type} [LinearOrderedField α] (infinity : α)
    (nodes : Nat → cpu_node_data α) (ps : Nat → List (Pivot α)) (stats : cpu_factor_stats)
    (k : Nat) (h : ∀ ni, ni < k → HoldsPivots infinity (nodes ni) (ps ni)) :
    post_pass_stats infinity nodes stats k = classify_pivots (all_pivots ps k) stats := by
  induction k with
  | zero => simp [post_pass_stats, all_pivots, classify_pivots]
  | succ k ih =>
    obtain ⟨henc, hcols⟩ := h k (Nat.lt_succ_self k)
    rw [post_pass_stats, all_pivots, classify_pivots_append,
      ih (fun ni hni => h ni (Nat.lt_succ_of_lt hni))]
    simp only [count_node]
    apply classify_loop_of_encodes _ _ _ _ _ _ henc
    · rw [← hcols]; simp
    · omega

/-- The columns of the pivots of nodes below `k` add up to the eliminated columns. -/
theorem total_nelim_of_holds {α : Type} [LinearOrderedField α] (infinity : α)
    (nodes : Nat → cpu_node_data α) (ps : Nat → List (Pivot α))
    (k : Nat) (h : ∀ ni, ni < k → HoldsPivots infinity (nodes ni) (ps ni)) :
    total_nelim nodes k = ((all_pivots ps k).map Pivot.cols).sum := by
  have hsum : ∀ qs : List (Pivot α), pivot_cols qs = (qs.map Pivot.cols).sum := by
    intro qs
    induction qs with
    | nil => rfl
    | cons q qs ih => simp [pivot_cols, ih]
  induction k with
  | zero => simp [total_nelim, all_pivots]
  | succ k ih =>
    rw [total_nelim, all_pivots, ih (fun ni hni => h ni (Nat.lt_succ_of_lt hni)),
      ← (h k (Nat.lt_succ_self k)).2, hsum]
    simp

/-! ## Theorems: eigenvalues of 2x2 pivots -/

/-- For a block with nonzero off-diagonal entry, the eigenvalues are the roots of the
characteristic polynomial `(a11 - l) * (a22 - l) - a21^2`. -/
theorem isEigenvalue_iff_root {α : Type} [LinearOrderedField α] (a11 a21 a22 l : α)
    (hne : a21 ≠ 0) :
    IsEigenvalue a11 a21 a22 l ↔ (a11 - l) * (a22 - l) - a21 * a21 = 0 := by
  constructor
  · rintro ⟨x, y, hxy, e1, e2⟩
    have hx : ((a11 - l) * (a22 - l) - a21 * a21) * x = 0 := by
      linear_combination (a22 - l) * e1 - a21 * e2
    have hy : ((a11 - l) * (a22 - l) - a21 * a21) * y = 0 := by
      linear_combination (a11 - l) * e2 - a21 * e1
    rcases hxy with h | h
    · exact (mul_eq_zero.mp hx).resolve_right h
    · exact (mul_eq_zero.mp hy).resolve_right h
  · intro hP
    refine ⟨a21, l - a11, Or.inl hne, by ring, ?_⟩
    linear_combination (-1 : α) * hP

/-- Two distinct values that are exactly the eigenvalues of a block have the trace as sum
and the determinant as product. -/
theorem eigenvalues_sum_prod {α : Type} [LinearOrderedField α] (a11 a21 a22 l1 l2 : α)
    (hne : a21 ≠ 0) (hlt : l1 < l2)
    (h : ∀ l, IsEigenvalue a11 a21 a22 l ↔ (l = l1 ∨ l = l2)) :
    l1 + l2 = a11 + a22 ∧ l1 * l2 = a11 * a22 - a21 * a21 := by
  have r1 := (isEigenvalue_iff_root a11 a21 a22 l1 hne).mp ((h l1).mpr (Or.inl rfl))
  have r2 := (isEigenvalue_iff_root a11 a21 a22 l2 hne).mp ((h l2).mpr (Or.inr rfl))
  have hd : (l1 - l2) * (l1 + l2 - (a11 + a22)) = 0 := by
    linear_combination r1 - r2
  have hsum : l1 + l2 = a11 + a22 := by
    have h12 : l1 - l2 ≠ 0 := sub_ne_zero.mpr (ne_of_lt hlt)
    have := (mul_eq_zero.mp hd).resolve_left h12
    linear_combination this
  refine ⟨hsum, ?_⟩
  linear_combination (-1 : α) * r1 + l1 * hsum

/-- Signs of two values `l1 < l2` from their sum (trace) and nonzero product (determinant),
following the case distinction of the classification code. -/
theorem eigenvalue_signs {α : Type} [LinearOrderedField α] (l1 l2 det trace : α)
    (hlt : l1 < l2) (hsum : l1 + l2 = trace) (hprod : l1 * l2 = det) (hdet : det ≠ 0) :
    (det < 0 → l1 < 0 ∧ 0 < l2) ∧
    (¬ det < 0 → trace < 0 → l1 < 0 ∧ l2 < 0) ∧
    (¬ det < 0 → ¬ trace < 0 → 0 < l1 ∧ 0 < l2) := by
  refine ⟨?_, ?_, ?_⟩
  · intro hd
    rw [← hprod] at hd
    rcases mul_neg_iff.mp hd with ⟨h1, h2⟩ | ⟨h1, h2⟩
    · exact absurd hlt (not_lt.mpr (le_of_lt (lt_trans h2 h1)))
    · exact ⟨h1, h2⟩
  · intro hd ht
    have hpos : 0 < l1 * l2 := by
      rw [hprod]; exact lt_of_le_of_ne (not_lt.mp hd) (Ne.symm hdet)
    rcases mul_pos_iff.mp hpos with ⟨h1, h2⟩ | ⟨h1, h2⟩
    · rw [← hsum] at ht
      exact absurd ht (not_lt.mpr (le_of_lt (add_pos h1 h2)))
    · exact ⟨h1, h2⟩
  · intro hd ht
    have hpos : 0 < l1 * l2 := by
      rw [hprod]; exact lt_of_le_of_ne (not_lt.mp hd) (Ne.symm hdet)
    rcases mul_pos_iff.mp hpos with ⟨h1, h2⟩ | ⟨h1, h2⟩
    · exact ⟨h1, h2⟩
    · rw [← hsum] at ht
      exact absurd (add_neg h1 h2) ht

/-- Over the reals a block with nonzero off-diagonal entry has exactly two eigenvalues,
and they are distinct. -/
theorem real_eigenvalues_exist (a11 a21 a22 : ℝ) (hne : a21 ≠ 0) :
    ∃ l1 l2 : ℝ, l1 < l2 ∧ ∀ l, IsEigenvalue a11 a21 a22 l ↔ (l = l1 ∨ l = l2) := by
  have hdisc : 0 < (a11 - a22) ^ 2 + 4 * a21 ^ 2 := by
    have := pow_pos (abs_pos.mpr hne) 2
    rw [sq_abs] at this
    nlinarith [sq_nonneg (a11 - a22)]
  have hs := Real.sqrt_pos.mpr hdisc
  have hsq := Real.sq_sqrt (le_of_lt hdisc)
  refine ⟨(a11 + a22 - Real.sqrt ((a11 - a22) ^ 2 + 4 * a21 ^ 2)) / 2,
    (a11 + a22 + Real.sqrt ((a11 - a22) ^ 2 + 4 * a21 ^ 2)) / 2, by linarith, ?_⟩
  intro l
  rw [isEigenvalue_iff_root a11 a21 a22 l hne]
  have hfac : (a11 - l) * (a22 - l) - a21 * a21
      = (l - (a11 + a22 - Real.sqrt ((a11 - a22) ^ 2 + 4 * a21 ^ 2)) / 2)
        * (l - (a11 + a22 + Real.sqrt ((a11 - a22) ^ 2 + 4 * a21 ^ 2)) / 2) := by
    linear_combination (1 / 4 : ℝ) * hsq
  rw [hfac, mul_eq_zero, sub_eq_zero, sub_eq_zero]

/-- What classifying a 1x1 pivot adds to the counters. -/
theorem added_one {α : Type} [LinearOrderedField α] (a : α) :
    (Pivot.one a).neg_added = (if a < 0 then 1 else 0) ∧
    (Pivot.one a).zero_added = (if a = 0 then 1 else 0) := by
  simp only [Pivot.neg_added, Pivot.zero_added, Pivot.classify, classify_body,
    Pivot.storage, cpu_factor_stats.zero]
  split_ifs <;> simp_all

/-- What classifying a 2x2 pivot adds to the counters. -/
theorem added_two {α : Type} [LinearOrderedField α] (a11 a21 a22 : α) (hne : a21 ≠ 0) :
    (Pivot.two a11 a21 a22).neg_added
      = (if a11 * a22 - a21 * a21 < 0 then 1 else if a11 + a22 < 0 then 2 else 0) ∧
    (Pivot.two a11 a21 a22).zero_added = 0 := by
  simp only [Pivot.neg_added, Pivot.zero_added, Pivot.classify, classify_body,
    Pivot.storage, cpu_factor_stats.zero]
  split_ifs <;> simp_all

/-- The three sign counts of a concatenation. -/
theorem count_append {α : Type} [LinearOrderedField α] (l1 l2 : List α) :
    count_neg (l1 ++ l2) = count_neg l1 + count_neg l2 ∧
    count_zero (l1 ++ l2) = count_zero l1 + count_zero l2 ∧
    count_pos (l1 ++ l2) = count_pos l1 + count_pos l2 := by
  simp [count_neg, count_zero, count_pos, List.filter_append]

/-- For a nonsingular pivot with listed eigenvalues, what the classification adds to
`num_neg` and `num_zero` is the number of negative and of zero eigenvalues, and the
negative, zero and positive eigenvalues together number the columns of the pivot. -/
theorem pivot_spectrum_counts {α : Type} [LinearOrderedField α] (p : Pivot α) (ls : List α)
    (hc : p.Coupled) (hn : p.Nonsingular) (hs : p.HasSpectrum ls) :
    p.neg_added = count_neg ls ∧ p.zero_added = count_zero ls ∧
    count_neg ls + count_zero ls + count_pos ls = (p.cols : Int) := by
  cases p with
  | one a =>
    have hls : ls = [a] := hs
    subst hls
    obtain ⟨e1, e2⟩ := added_one a
    rw [e1, e2]
    simp only [count_neg, count_zero, count_pos, Pivot.cols, List.filter]
    rcases lt_trichotomy a 0 with h | h | h
    · have h1 : ¬ a = 0 := ne_of_lt h
      have h2 : ¬ 0 < a := not_lt.mpr (le_of_lt h)
      simp [h, h1, h2]
    · subst h
      simp
    · have h1 : ¬ a = 0 := ne_of_gt h
      have h2 : ¬ a < 0 := not_lt.mpr (le_of_lt h)
      simp [h, h1, h2]
  | two a11 a21 a22 =>
    obtain ⟨l1, l2, hls, hlt, hiff⟩ := hs
    subst hls
    have hne : a21 ≠ 0 := hc
    have hdet : a11 * a22 - a21 * a21 ≠ 0 := hn
    obtain ⟨hsum, hprod⟩ := eigenvalues_sum_prod a11 a21 a22 l1 l2 hne hlt hiff
    obtain ⟨s1, s2, s3⟩ := eigenvalue_signs l1 l2 _ _ hlt hsum hprod hdet
    obtain ⟨e1, e2⟩ := added_two a11 a21 a22 hne
    rw [e1, e2]
    simp only [count_neg, count_zero, count_pos, Pivot.cols, List.filter]
    by_cases hd : a11 * a22 - a21 * a21 < 0
    · obtain ⟨n1, p2⟩ := s1 hd
      have z1 : ¬ l1 = 0 := ne_of_lt n1
      have z2 : ¬ l2 = 0 := ne_of_gt p2
      have q1 : ¬ 0 < l1 := not_lt.mpr (le_of_lt n1)
      have q2 : ¬ l2 < 0 := not_lt.mpr (le_of_lt p2)
      simp [hd, n1, p2, z1, z2, q1, q2]
    · by_cases ht : a11 + a22 < 0
      · obtain ⟨n1, n2⟩ := s2 hd ht
        have z1 : ¬ l1 = 0 := ne_of_lt n1
        have z2 : ¬ l2 = 0 := ne_of_lt n2
        have q1 : ¬ 0 < l1 := not_lt.mpr (le_of_lt n1)
        have q2 : ¬ 0 < l2 := not_lt.mpr (le_of_lt n2)
        simp [hd, ht, n1, n2, z1, z2, q1, q2]
      · obtain ⟨p1, p2⟩ := s3 hd ht
        have z1 : ¬ l1 = 0 := ne_of_gt p1
        have z2 : ¬ l2 = 0 := ne_of_gt p2
        have q1 : ¬ l1 < 0 := not_lt.mpr (le_of_lt p1)
        have q2 : ¬ l2 < 0 := not_lt.mpr (le_of_lt p2)
        simp [hd, ht, p1, p2, z1, z2, q1, q2]

/-- The list version of `pivot_spectrum_counts`. -/
theorem spectrum_counts {α : Type} [LinearOrderedField α] (ps : List (Pivot α))
    (eigs : List α) (hc : ∀ p ∈ ps, p.Coupled) (hn : ∀ p ∈ ps, p.Nonsingular)
    (hs : HasSpectrum ps eigs) :
    (ps.map Pivot.neg_added).sum = count_neg eigs ∧
    (ps.map Pivot.zero_added).sum = count_zero eigs ∧
    count_neg eigs + count_zero eigs + count_pos eigs = ((ps.map Pivot.cols).sum : Nat) := by
  induction ps generalizing eigs with
  | nil =>
    have : eigs = [] := hs
    subst this
    simp [count_neg, count_zero, count_pos]
  | cons p ps ih =>
    obtain ⟨l1, l2, hl, hp, hrest⟩ := hs
    subst hl
    obtain ⟨a1, a2, a3⟩ := pivot_spectrum_counts p l1 (hc p (List.mem_cons_self _ _))
      (hn p (List.mem_cons_self _ _)) hp
    obtain ⟨b1, b2, b3⟩ := ih l2 (fun q hq => hc q (List.mem_cons_of_mem _ hq))
      (fun q hq => hn q (List.mem_cons_of_mem _ hq)) hrest
    obtain ⟨c1, c2, c3⟩ := count_append l1 l2
    simp only [List.map_cons, List.sum_cons, Nat.cast_add]
    rw [c1, c2, c3, a1, a2, b1, b2, ← a3, ← b3]
    refine ⟨rfl, rfl, ?_⟩
    ring

/-- Over the reals every pivot sequence whose 2x2 pivots have nonzero off-diagonal entries
has a list of eigenvalues. -/
theorem real_spectrum_exists (ps : List (Pivot ℝ)) (hc : ∀ p ∈ ps, p.Coupled) :
    ∃ eigs, HasSpectrum ps eigs := by
  induction ps with
  | nil => exact ⟨[], rfl⟩
  | cons p ps ih =>
    obtain ⟨l2, h2⟩ := ih (fun q hq => hc q (List.mem_cons_of_mem _ hq))
    have hp : ∃ l1, p.HasSpectrum l1 := by
      cases p with
      | one a => exact ⟨[a], rfl⟩
      | two a11 a21 a22 =>
        have hne : a21 ≠ 0 := hc _ (List.mem_cons_self _ _)
        obtain ⟨l1, l2, hlt, h⟩ := real_eigenvalues_exist a11 a21 a22 hne
        exact ⟨[l1, l2], l1, l2, rfl, hlt, h⟩
    obtain ⟨l1, h1⟩ := hp
    exact ⟨l1 ++ l2, l1, l2, rfl, h1, h2⟩

/-! ## Theorems: classification against eigenvalues -/

/-- C6 (as stated, refuted): for the block `[[-1, 1], [1, -1]]` (`a21 ≠ 0`, determinant 0,
trace -2) the loop body takes the `trace < 0` branch and adds 2 to `num_neg`, while the
eigenvalues of the block are -2 and 0: only one is negative. -/
theorem classify_two_by_two_counterexample :
    ((1 : ℝ) ≠ 0) ∧ ¬ ((-1 : ℝ) * (-1) - 1 * 1 < 0) ∧ ((-1 : ℝ) + (-1) < 0) ∧
    (classify_body (Pivot.two (-1 : ℝ) 1 (-1)).storage 0 cpu_factor_stats.zero).2.num_neg
      = cpu_factor_stats.zero.num_neg + 2 ∧
    (∀ l : ℝ, IsEigenvalue (-1) 1 (-1) l ↔ (l = -2 ∨ l = 0)) ∧
    count_neg [(-2 : ℝ), 0] = 1 := by
  refine ⟨by norm_num, by norm_num, by norm_num, ?_, ?_, ?_⟩
  · simp [classify_body, Pivot.storage, cpu_factor_stats.zero]
  · intro l
    rw [isEigenvalue_iff_root (-1) 1 (-1) l (by norm_num)]
    have : (-1 - l) * (-1 - l) - 1 * 1 = (l + 2) * l := by ring
    rw [this, mul_eq_zero]
    constructor
    · rintro (h | h)
      · left; linarith
      · right; exact h
    · rintro (h | h)
      · left; linarith
      · right; exact h
  · simp [count_neg, List.filter]

/-- C6 (amended): in the classification loop over the reals, for a 2x2 pivot block
`(a11, a21, a22)` with `a21 ≠ 0` and nonzero determinant `det = a11*a22 - a21^2`, with
`trace = a11 + a22`: `num_two` grows by 1 and the column index advances by 2; the block
has exactly two eigenvalues `l1 < l2`; if `det < 0` one is negative and one positive and
`num_neg` grows by 1; otherwise if `trace < 0` both are negative and `num_neg` grows by 2;
otherwise both are positive and `num_neg` is unchanged.  So `num_neg` grows by the number
of negative eigenvalues of the block. -/
theorem classify_two_by_two (d : Nat → ℝ) (i : Nat) (stats : cpu_factor_stats)
    (a11 a21 a22 : ℝ) (h11 : d (2 * i) = a11) (h21 : d (2 * i + 1) = a21)
    (h22 : d (2 * (i + 1)) = a22) (hne : a21 ≠ 0) (hdet : a11 * a22 - a21 * a21 ≠ 0) :
    (classify_body d i stats).1 = i + 2 ∧
    (classify_body d i stats).2.num_two = stats.num_two + 1 ∧
    ∃ l1 l2 : ℝ, l1 < l2 ∧ (∀ l, IsEigenvalue a11 a21 a22 l ↔ (l = l1 ∨ l = l2)) ∧
      (a11 * a22 - a21 * a21 < 0 →
        l1 < 0 ∧ 0 < l2 ∧ (classify_body d i stats).2.num_neg = stats.num_neg + 1) ∧
      (¬ a11 * a22 - a21 * a21 < 0 → a11 + a22 < 0 →
        l1 < 0 ∧ l2 < 0 ∧ (classify_body d i stats).2.num_neg = stats.num_neg + 2) ∧
      (¬ a11 * a22 - a21 * a21 < 0 → ¬ a11 + a22 < 0 →
        0 < l1 ∧ 0 < l2 ∧ (classify_body d i stats).2.num_neg = stats.num_neg) ∧
      (classify_body d i stats).2.num_neg = stats.num_neg + count_neg [l1, l2] := by
  have henc : Encodes d i [Pivot.two a11 a21 a22] := ⟨h11, h21, hne, h22, trivial⟩
  have hbody := classify_body_of_encodes d i _ _ stats henc
  obtain ⟨_, _, t3⟩ := classify_body_additive (Pivot.two a11 a21 a22).storage 0 stats
  obtain ⟨n1, _, _⟩ := classify_body_additive (Pivot.two a11 a21 a22).storage 0 stats
  obtain ⟨e1, _⟩ := added_two a11 a21 a22 hne
  have hneg : (classify_body d i stats).2.num_neg = stats.num_neg +
      (if a11 * a22 - a21 * a21 < 0 then 1 else if a11 + a22 < 0 then 2 else 0) := by
    rw [hbody, ← e1]
    exact n1
  have htwo : (classify_body d i stats).2.num_two = stats.num_two + 1 := by
    rw [hbody]
    simp only [Pivot.classify]
    rw [t3]
    simp [classify_body, Pivot.storage, cpu_factor_stats.zero, hne]
    split_ifs <;> rfl
  obtain ⟨l1, l2, hlt, hiff⟩ := real_eigenvalues_exist a11 a21 a22 hne
  obtain ⟨hsum, hprod⟩ := eigenvalues_sum_prod a11 a21 a22 l1 l2 hne hlt hiff
  obtain ⟨s1, s2, s3⟩ := eigenvalue_signs l1 l2 _ _ hlt hsum hprod hdet
  obtain ⟨c1, _, _⟩ := pivot_spectrum_counts (Pivot.two a11 a21 a22) [l1, l2] hne hdet
    ⟨l1, l2, rfl, hlt, hiff⟩
  refine ⟨by rw [hbody]; rfl, htwo, l1, l2, hlt, hiff, ?_, ?_, ?_, ?_⟩
  · intro hd
    exact ⟨(s1 hd).1, (s1 hd).2, by rw [hneg, if_pos hd]⟩
  · intro hd ht
    exact ⟨(s2 hd ht).1, (s2 hd ht).2, by rw [hneg, if_neg hd, if_pos ht]⟩
  · intro hd ht
    exact ⟨(s3 hd ht).1, (s3 hd ht).2, by rw [hneg, if_neg hd, if_neg ht]; simp⟩
  · rw [hneg, ← e1, c1]

/-- Witness for C6 (amended): the block `[[2, 1], [1, 2]]` at column 0. -/
theorem classify_two_by_two_witness :
    (classify_body (Pivot.two (2 : ℝ) 1 2).storage 0 cpu_factor_stats.zero).1 = 0 + 2 ∧
    (classify_body (Pivot.two (2 : ℝ) 1 2).storage 0 cpu_factor_stats.zero).2.num_two
      = cpu_factor_stats.zero.num_two + 1 :=
  have h := classify_two_by_two (Pivot.two (2 : ℝ) 1 2).storage 0 cpu_factor_stats.zero
    2 1 2 (by simp [Pivot.storage]) (by simp [Pivot.storage]) (by simp [Pivot.storage])
    (by norm_num) (by norm_num)
  ⟨h.1, h.2.1⟩

/-! ## Theorems: inertia of a whole indefinite run -/

/-- In indefinite mode the main loop is never ended by a terminal failure, and it leaves
`num_neg`, `num_zero` and the node count alone. -/
theorem main_loop_keeps_counts {α : Type} (E : Externals α) (S : SubtreeState α) :
    (main_loop false E S).2 = false ∧
    (main_loop false E S).1.stats.num_neg = S.stats.num_neg ∧
    (main_loop false E S).1.stats.num_zero = S.stats.num_zero ∧
    (main_loop false E S).1.nnodes_ = S.nnodes_ := by
  obtain ⟨h1, _, h3, h4, h5⟩ := main_loop_steps_ok false E S S.nnodes_.toNat
    (fun _ _ => rfl)
  have hmain : main_loop false E S = main_loop_steps false E S S.nnodes_.toNat := rfl
  rw [hmain]
  exact ⟨h1, h4, h5, h3⟩

/-- A pivot of `all_pivots ps k` is a pivot of some node below `k`. -/
theorem mem_all_pivots {α : Type} (ps : Nat → List (Pivot α)) (k : Nat) (p : Pivot α)
    (h : p ∈ all_pivots ps k) : ∃ ni, ni < k ∧ p ∈ ps ni := by
  induction k with
  | zero => cases h
  | succ k ih =>
    rcases List.mem_append.mp h with h1 | h1
    · obtain ⟨ni, hni, hp⟩ := ih h1
      exact ⟨ni, Nat.lt_succ_of_lt hni, hp⟩
    · exact ⟨k, Nat.lt_succ_self k, h1⟩

/-- The total of eliminated columns depends on the `nelim` fields only. -/
theorem total_nelim_congr {α : Type} (f g : Nat → cpu_node_data α) (k : Nat)
    (h : ∀ j, j < k → (f j).nelim = (g j).nelim) : total_nelim f k = total_nelim g k := by
  induction k with
  | zero => rfl
  | succ k ih =>
    rw [total_nelim, total_nelim, ih (fun j hj => h j (Nat.lt_succ_of_lt hj)),
      h k (Nat.lt_succ_self k)]

/-- Reordering the pivots within each node does not change the sum of what they add to
`num_neg`. -/
theorem neg_added_sum_perm {α : Type} [LinearOrderedField α] (ps qs : Nat → List (Pivot α))
    (k : Nat) (h : ∀ ni, ni < k → (ps ni).Perm (qs ni)) :
    ((all_pivots ps k).map Pivot.neg_added).sum
      = ((all_pivots qs k).map Pivot.neg_added).sum := by
  induction k with
  | zero => rfl
  | succ k ih =>
    simp only [all_pivots, List.map_append, List.sum_append]
    rw [ih (fun ni hni => h ni (Nat.lt_succ_of_lt hni)),
      ((h k (Nat.lt_succ_self k)).map Pivot.neg_added).sum_eq]

/-- The statistics of an indefinite run from zeroed statistics whose nodes hold the pivot
sequences `ps`: `num_neg` and `num_zero` are the sums of what the pivots add. -/
theorem factor_indef_counts {α : Type} [LinearOrderedField α] (E : Externals α)
    (infinity : α) (S : SubtreeState α) (ps : Nat → List (Pivot α))
    (hz : S.stats = cpu_factor_stats.zero) (hps : RunHolds E infinity S ps) :
    (CpuSubtree.factor false E infinity S).stats.num_neg
      = ((all_pivots ps S.nnodes_.toNat).map Pivot.neg_added).sum ∧
    (CpuSubtree.factor false E infinity S).stats.num_zero
      = ((all_pivots ps S.nnodes_.toNat).map Pivot.zero_added).sum ∧
    total_nelim (CpuSubtree.factor false E infinity S).nodes_ S.nnodes_.toNat
      = (((all_pivots ps S.nnodes_.toNat).map Pivot.cols).sum : Nat) := by
  obtain ⟨m0, m1, m2, m3⟩ := main_loop_keeps_counts E S
  obtain ⟨c1, c2⟩ := count_stats_indef infinity (main_loop false E S).1
  have hholds : ∀ ni, ni < S.nnodes_.toNat →
      HoldsPivots infinity ((main_loop false E S).1.nodes_ ni) (ps ni) := by
    intro ni hni
    exact hps ni (by omega)
  have hstats := post_pass_stats_of_holds infinity (main_loop false E S).1.nodes_ ps
    (main_loop false E S).1.stats S.nnodes_.toNat hholds
  obtain ⟨p1, p2⟩ := classify_pivots_counts (all_pivots ps S.nnodes_.toNat)
    (main_loop false E S).1.stats
  simp only [CpuSubtree.factor, m0, Bool.false_eq_true, if_false]
  rw [c1, m3, hstats, p1, p2, m1, m2, hz]
  refine ⟨by simp [cpu_factor_stats.zero], by simp [cpu_factor_stats.zero], ?_⟩
  rw [← total_nelim_of_holds infinity (main_loop false E S).1.nodes_ ps S.nnodes_.toNat
    hholds]
  apply total_nelim_congr
  intro j hj
  rw [c2 j, m3, if_pos hj]

/-- C7 (amended): over exact real arithmetic, for an indefinite run of `CpuSubtree::factor`
from zeroed statistics in which, at the end of the main loop, every node's diagonal
storage (the memory the statistics pass reads, after its sentinel repair) holds a sequence
of 1x1 and 2x2 pivots covering exactly its `nelim` columns, and every 2x2 pivot is
nonsingular: the block-diagonal pivot matrix has a list of eigenvalues, and for
any such list `num_neg` is the number of negative eigenvalues, `num_zero` the number of
zero eigenvalues, and `num_neg + num_zero + (number of positive eigenvalues)` is the total
number of eliminated columns.  Moreover `num_neg` is the same for a second run whose nodes
hold the same pivots in another order (each pivot, 1x1 or 2x2, moved as a unit). -/
theorem factor_indef_inertia (E E2 : Externals ℝ) (infinity : ℝ) (S S2 : SubtreeState ℝ)
    (ps qs : Nat → List (Pivot ℝ))
    (hz : S.stats = cpu_factor_stats.zero) (hz2 : S2.stats = cpu_factor_stats.zero)
    (hps : RunHolds E infinity S ps) (hqs : RunHolds E2 infinity S2 qs)
    (hns : ∀ ni : Nat, (ni : Int) < S.nnodes_ → ∀ p ∈ ps ni, p.Nonsingular)
    (hnn : S2.nnodes_ = S.nnodes_)
    (hperm : ∀ ni : Nat, (ni : Int) < S.nnodes_ → (ps ni).Perm (qs ni)) :
    (∃ eigs, HasSpectrum (all_pivots ps S.nnodes_.toNat) eigs) ∧
    (∀ eigs, HasSpectrum (all_pivots ps S.nnodes_.toNat) eigs →
      (CpuSubtree.factor false E infinity S).stats.num_neg = count_neg eigs ∧
      (CpuSubtree.factor false E infinity S).stats.num_zero = count_zero eigs ∧
      (CpuSubtree.factor false E infinity S).stats.num_neg
        + (CpuSubtree.factor false E infinity S).stats.num_zero + count_pos eigs
        = total_nelim (CpuSubtree.factor false E infinity S).nodes_ S.nnodes_.toNat) ∧
    (CpuSubtree.factor false E2 infinity S2).stats.num_neg
      = (CpuSubtree.factor false E infinity S).stats.num_neg := by
  obtain ⟨f1, f2, f3⟩ := factor_indef_counts E infinity S ps hz hps
  obtain ⟨g1, _, _⟩ := factor_indef_counts E2 infinity S2 qs hz2 hqs
  have hcoupled : ∀ p ∈ all_pivots ps S.nnodes_.toNat, p.Coupled := by
    intro p hp
    obtain ⟨ni, hni, hmem⟩ := mem_all_pivots ps _ p hp
    exact encodes_coupled _ _ 0 (hps ni (by omega)).1 p hmem
  have hnons : ∀ p ∈ all_pivots ps S.nnodes_.toNat, p.Nonsingular := by
    intro p hp
    obtain ⟨ni, hni, hmem⟩ := mem_all_pivots ps _ p hp
    exact hns ni (by omega) p hmem
  refine ⟨real_spectrum_exists _ hcoupled, ?_, ?_⟩
  · intro eigs heigs
    obtain ⟨s1, s2, s3⟩ := spectrum_counts _ eigs hcoupled hnons heigs
    rw [f1, f2, f3, s1, s2]
    exact ⟨rfl, rfl, s3⟩
  · rw [g1, f1, hnn]
    exact (neg_added_sum_perm ps qs S.nnodes_.toNat (fun ni hni => hperm ni (by omega))).symm

/-! ## Evaluation of one-node sample runs -/

/-- Sample storage never holds a value that is neither listed nor zero. -/
theorem sample_d_ne {α : Type} [Zero α] (xs : List α) (v : α) (hx : ∀ x ∈ xs, x ≠ v)
    (h0 : (0 : α) ≠ v) (j : Nat) : sample_d xs j ≠ v := by
  induction xs generalizing j with
  | nil => simpa [sample_d] using h0
  | cons x xs ih =>
    cases j with
    | zero => simpa [sample_d] using hx x (List.mem_cons_self _ _)
    | succ j =>
      have := ih (fun y hy => hx y (List.mem_cons_of_mem _ hy)) j
      simpa [sample_d] using this

/-- The main loop of an indefinite one-node sample run whose first stage eliminates all
`c` columns leaves the storage of node 0 as it was and sets `nelim = c`. -/
theorem sample_run_node {α : Type} (fail : Nat → Option Int) (c : Int) (d : Nat → α) :
    ((main_loop false (sample_externals α fail (fun _ => c))
      (sample_subtree α 1 (fun _ => c) (fun _ => 0) (fun _ => d))).1.nodes_ 0).d = d ∧
    ((main_loop false (sample_externals α fail (fun _ => c))
      (sample_subtree α 1 (fun _ => c) (fun _ => 0) (fun _ => d))).1.nodes_ 0).nelim = c := by
  have hrange : (sample_subtree α 1 (fun _ => c) (fun _ => 0) (fun _ => d)).nnodes_.toNat
      = 1 := rfl
  have hone : List.range 1 = [0] := rfl
  simp only [main_loop, hrange, hone, List.foldl_cons, List.foldl_nil,
    Bool.false_eq_true, if_false]
  simp [factor_iteration, spec_factor_node, sample_externals, sample_subtree]

/-- An indefinite one-node sample run on storage that encodes the pivot sequence `ps` and
holds no sentinel: at the end of the main loop node 0 holds `ps`. -/
theorem sample_run_holds {α : Type} [LinearOrderedField α] (fail : Nat → Option Int)
    (infinity : α) (d : Nat → α) (ps : List (Pivot α)) (c : Int)
    (henc : Encodes d 0 ps) (hinf : ∀ j, d j ≠ infinity) (hc : (pivot_cols ps : Int) = c) :
    RunHolds (sample_externals α fail (fun _ => c)) infinity
      (sample_subtree α 1 (fun _ => c) (fun _ => 0) (fun _ => d)) (fun _ => ps) := by
  intro ni hni
  have h0 : ni = 0 := by
    have : (sample_subtree α 1 (fun _ => c) (fun _ => 0) (fun _ => d)).nnodes_ = 1 := rfl
    rw [this] at hni
    omega
  subst h0
  obtain ⟨e1, e2⟩ := sample_run_node fail c d
  have hrep : repair_infinity infinity d c = d := by
    funext x
    rw [repair_infinity_apply]
    have : ¬ (x % 2 = 0 ∧ x / 2 < c.toNat ∧ d x = infinity) := fun h => hinf x h.2.2
    rw [if_neg this]
  refine ⟨?_, ?_⟩
  · rw [e1, e2, hrep]
    exact henc
  · rw [e2]
    exact hc

/-- C7 (as stated, refuted): (a) an indefinite run over one node whose single eliminated
column is a zero 1x1 pivot ends with `num_neg = 0`, so `num_neg` plus the number of
positive eigenvalues is 0, not the 1 eliminated column; (b) a run over one node holding the
singular 2x2 pivot `[[1, 1], [1, 1]]`, with eigenvalues 0 and 2, ends with
`num_neg + num_zero = 0` and one positive eigenvalue against 2 eliminated columns. -/
theorem factor_indef_inertia_counterexample :
    (RunHolds (sample_externals ℝ (fun _ => none) (fun _ => 1)) 1000000
        (sample_subtree ℝ 1 (fun _ => 1) (fun _ => 0) (fun _ => sample_d [0, 0]))
        (fun _ => [Pivot.one 0]) ∧
      HasSpectrum [Pivot.one (0 : ℝ)] [0] ∧
      (CpuSubtree.factor false (sample_externals ℝ (fun _ => none) (fun _ => 1)) 1000000
        (sample_subtree ℝ 1 (fun _ => 1) (fun _ => 0) (fun _ => sample_d [0, 0]))).stats.num_neg
        + count_pos [(0 : ℝ)]
      ≠ total_nelim (CpuSubtree.factor false (sample_externals ℝ (fun _ => none) (fun _ => 1))
          1000000 (sample_subtree ℝ 1 (fun _ => 1) (fun _ => 0)
            (fun _ => sample_d [0, 0]))).nodes_ 1) ∧
    (RunHolds (sample_externals ℝ (fun _ => none) (fun _ => 2)) 1000000
        (sample_subtree ℝ 1 (fun _ => 2) (fun _ => 0) (fun _ => sample_d [1, 1, 1, 0]))
        (fun _ => [Pivot.two 1 1 1]) ∧
      HasSpectrum [Pivot.two (1 : ℝ) 1 1] [0, 2] ∧
      (CpuSubtree.factor false (sample_externals ℝ (fun _ => none) (fun _ => 2)) 1000000
        (sample_subtree ℝ 1 (fun _ => 2) (fun _ => 0)
          (fun _ => sample_d [1, 1, 1, 0]))).stats.num_neg
        + (CpuSubtree.factor false (sample_externals ℝ (fun _ => none) (fun _ => 2)) 1000000
          (sample_subtree ℝ 1 (fun _ => 2) (fun _ => 0)
            (fun _ => sample_d [1, 1, 1, 0]))).stats.num_zero
        + count_pos [(0 : ℝ), 2]
      ≠ total_nelim (CpuSubtree.factor false (sample_externals ℝ (fun _ => none) (fun _ => 2))
          1000000 (sample_subtree ℝ 1 (fun _ => 2) (fun _ => 0)
            (fun _ => sample_d [1, 1, 1, 0]))).nodes_ 1) := by
  have ha : RunHolds (sample_externals ℝ (fun _ => none) (fun _ => 1)) 1000000
      (sample_subtree ℝ 1 (fun _ => 1) (fun _ => 0) (fun _ => sample_d [0, 0]))
      (fun _ => [Pivot.one 0]) :=
    sample_run_holds _ _ _ _ 1 (by simp [Encodes, sample_d])
      (sample_d_ne _ _ (by intro x hx; fin_cases hx <;> norm_num) (by norm_num))
      (by simp [pivot_cols, Pivot.cols])
  have hb : RunHolds (sample_externals ℝ (fun _ => none) (fun _ => 2)) 1000000
      (sample_subtree ℝ 1 (fun _ => 2) (fun _ => 0) (fun _ => sample_d [1, 1, 1, 0]))
      (fun _ => [Pivot.two 1 1 1]) :=
    sample_run_holds _ _ _ _ 2 (by simp [Encodes, sample_d])
      (sample_d_ne _ _ (by intro x hx; fin_cases hx <;> norm_num)
        (by norm_num))
      (by simp [pivot_cols, Pivot.cols])
  obtain ⟨a1, _, a3⟩ := factor_indef_counts _ _ _ _ rfl ha
  obtain ⟨b1, b2, b3⟩ := factor_indef_counts _ _ _ _ rfl hb
  have hn : (sample_subtree ℝ 1 (fun _ => 1) (fun _ => 0)
      (fun _ => sample_d [0, 0])).nnodes_.toNat = 1 := rfl
  have hn2 : (sample_subtree ℝ 1 (fun _ => 2) (fun _ => 0)
      (fun _ => sample_d [1, 1, 1, 0])).nnodes_.toNat = 1 := rfl
  rw [hn] at a1 a3
  rw [hn2] at b1 b2 b3
  refine ⟨⟨ha, ⟨[0], [], rfl, rfl, rfl⟩, ?_⟩, ⟨hb, ⟨[0, 2], [], rfl, ?_, rfl⟩, ?_⟩⟩
  · rw [a1, a3]
    simp [all_pivots, (added_one (0 : ℝ)).1, count_pos, Pivot.cols]
  · refine ⟨0, 2, rfl, by norm_num, ?_⟩
    intro l
    rw [isEigenvalue_iff_root 1 1 1 l (by norm_num)]
    have : (1 - l) * (1 - l) - 1 * 1 = l * (l - 2) := by ring
    rw [this, mul_eq_zero, sub_eq_zero]
  · rw [b1, b2, b3]
    simp [all_pivots, (added_two (1 : ℝ) 1 1 (by norm_num)).1,
      (added_two (1 : ℝ) 1 1 (by norm_num)).2, count_pos, Pivot.cols]
    norm_num

/-- Witness for C7 (amended): one node with pivots `-1, 2` in the first run and `2, -1` in
the second. -/
theorem factor_indef_inertia_witness :
    (CpuSubtree.factor false (sample_externals ℝ (fun _ => none) (fun _ => 2)) 1000000
      (sample_subtree ℝ 1 (fun _ => 2) (fun _ => 0)
        (fun _ => sample_d [2, 0, -1, 0]))).stats.num_neg
    = (CpuSubtree.factor false (sample_externals ℝ (fun _ => none) (fun _ => 2)) 1000000
      (sample_subtree ℝ 1 (fun _ => 2) (fun _ => 0)
        (fun _ => sample_d [-1, 0, 2, 0]))).stats.num_neg :=
  (factor_indef_inertia (sample_externals ℝ (fun _ => none) (fun _ => 2))
    (sample_externals ℝ (fun _ => none) (fun _ => 2)) 1000000
    (sample_subtree ℝ 1 (fun _ => 2) (fun _ => 0) (fun _ => sample_d [-1, 0, 2, 0]))
    (sample_subtree ℝ 1 (fun _ => 2) (fun _ => 0) (fun _ => sample_d [2, 0, -1, 0]))
    (fun _ => [Pivot.one (-1), Pivot.one 2]) (fun _ => [Pivot.one 2, Pivot.one (-1)])
    rfl rfl
    (sample_run_holds _ _ _ _ 2 (by simp [Encodes, sample_d])
      (sample_d_ne _ _
        (by intro x hx; fin_cases hx <;> norm_num)
        (by norm_num))
      (by simp [pivot_cols, Pivot.cols]))
    (sample_run_holds _ _ _ _ 2 (by simp [Encodes, sample_d])
      (sample_d_ne _ _
        (by intro x hx; fin_cases hx <;> norm_num)
        (by norm_num))
      (by simp [pivot_cols, Pivot.cols]))
    (by
      intro ni _ p hp
      simp at hp
      rcases hp with h | h <;> subst h <;> trivial)
    rfl
    (fun _ _ => List.Perm.swap _ _ _)).2.2

/-- Witness for C9: one node with one eliminated column whose slots hold the sentinel and
the value 5. -/
theorem repair_infinity_sentinel_witness :
    repair_infinity (1000000 : ℚ) (sample_d [1000000, 5]) 1 (2 * 0) = 5 ∧
    repair_infinity (1000000 : ℚ) (sample_d [1000000, 5]) 1 (2 * 0 + 1) = 5 :=
  have h := repair_infinity_sentinel (1000000 : ℚ)
    (sample_subtree ℚ 1 (fun _ => 1) (fun _ => 1) (fun _ => sample_d [1000000, 5])) 0 0 5
    (by decide) (by decide) (by simp [sample_subtree, sample_node, sample_d])
    (by simp [sample_subtree, sample_node, sample_d])
  ⟨h.2.2.1, h.2.2.2.1⟩

end spral.ssids.cpu
